import Mathlib

/-!
# Verification of the volt-wasm computation core

Shallow embedding of `src/frontend/wasm-core/volt-wasm/src/lib.rs`
(template substitution, JSON path extraction, assertion evaluation),
with theorems settling the specification claims.

Modelling conventions:
* Rust `String`/`&str` values are `List Char` (Unicode scalar sequences);
  byte-level operations (`str::len`, byte slicing) are computed through
  `Char.utf8Size`.
* The `serde_json` value type is `JValue`; JSON numbers are modelled as
  integers (floating-point documents are outside the model).  Parsing
  (`serde_json::from_str`) is `parseDoc`, serialization
  (`serde_json::to_string`) is `serJ`.
* Compilation of *user-supplied* regular expression patterns
  (`Regex::new(&assertion.expected)` in the `matches` operator) is the
  external `regex_lite` engine, abstracted as a `RegexEngine` parameter.
  The two fixed patterns of the source (`\{\{([^}]+)\}\}` and
  `^(.+)\[(\d+)\]$`) are modelled concretely.
* Rust panics (the byte slice `&body[..100]` on a non-boundary index) are
  modelled by `Option`: a function returns `none` exactly when the Rust
  code panics.
-/

namespace Volt

/-! ## Character and string utilities -/

/-- Unicode `White_Space` code points, as used by Rust's `str::trim`
(`char::is_whitespace`). -/
def rustIsWs (c : Char) : Bool :=
  let n := c.toNat
  ([0x09, 0x0A, 0x0B, 0x0C, 0x0D, 0x20, 0x85, 0xA0, 0x1680, 0x2028,
    0x2029, 0x202F, 0x205F, 0x3000].contains n)
  || (decide (0x2000 ≤ n) && decide (n ≤ 0x200A))

/-- Rust `str::trim`: drop Unicode whitespace from both ends. -/
def rustTrim (cs : List Char) : List Char :=
  ((cs.dropWhile rustIsWs).reverse.dropWhile rustIsWs).reverse

/-- First-match association-list lookup, modelling `HashMap::get` on the
variable table (keys of a deserialized JSON object are distinct). -/
def assocLookup (k : List Char) : List (List Char × List Char) → Option (List Char)
  | [] => none
  | (k', v) :: t => if k' = k then some v else assocLookup k t

/-- Rust `text.contains("{{")`: does the text contain two consecutive
opening braces? -/
def containsBrace : List Char → Bool
  | [] => false
  | c :: rest => ((c == '{') && (rest.head? == some '{')) || containsBrace rest

/-- One attempt of the fixed placeholder regex at the *current* position:
the pattern `\x7b\x7b([^\x7d]+)\x7d\x7d` matches at the head of `cs` iff
`cs` starts with two `{`, followed by a nonempty run of non-`}` characters
(the greedy capture), followed by two `}`.  Returns the captured interior
and the remainder after the match. -/
def tryMatchInner (rest : List Char) : Option (List Char × List Char) :=
  match rest.takeWhile (fun c => c ≠ '}'), rest.dropWhile (fun c => c ≠ '}') with
  | _ :: _, '}' :: '}' :: aft2 => some (rest.takeWhile (fun c => c ≠ '}'), aft2)
  | _, _ => none

def tryMatch : List Char → Option (List Char × List Char)
  | '{' :: '{' :: rest => tryMatchInner rest
  | _ => none

/-- The replacement scan of `Regex::replace_all` with the placeholder
pattern, as used by `substitute_variables`: leftmost-first, non-overlapping
matches; a matched placeholder whose trimmed interior is in the table is
replaced by the table's value, otherwise the full original match text is
emitted.  The fuel argument only makes the recursion structural; it is
never exhausted when it exceeds the text length. -/
def scanSubF (vars : List (List Char × List Char)) : Nat → List Char → List Char
  | 0, _ => []
  | _ + 1, [] => []
  | f + 1, c :: rest =>
    match tryMatch (c :: rest) with
    | some (int, aft2) =>
      match assocLookup (rustTrim int) vars with
      | some v => v ++ scanSubF vars f aft2
      | none => '{' :: '{' :: (int ++ '}' :: '}' :: scanSubF vars f aft2)
    | none => c :: scanSubF vars f rest

def scanSub (vars : List (List Char × List Char)) (cs : List Char) : List Char :=
  scanSubF vars (cs.length + 1) cs

/-- `substitute_variables` (lib.rs:21-44), after the variable table has been
deserialized; an unparsable table short-circuits at the serde boundary and
is not modelled here. -/
def substituteVariables (text : List Char) (vars : List (List Char × List Char)) :
    List Char :=
  if text = [] ∨ containsBrace text = false then text
  else if vars = [] then text
  else scanSub vars text

/-- The collection loop of `find_variables` (lib.rs:96-101): push each
matched placeholder's trimmed interior unless already collected. -/
def collectVarsF : Nat → List (List Char) → List Char → List (List Char)
  | 0, vars, _ => vars
  | _ + 1, vars, [] => vars
  | f + 1, vars, c :: rest =>
    match tryMatch (c :: rest) with
    | some (int, aft2) =>
      collectVarsF f
        (if vars.contains (rustTrim int) then vars else vars ++ [rustTrim int]) aft2
    | none => collectVarsF f vars rest

def collectVars (vars : List (List Char)) (cs : List Char) : List (List Char) :=
  collectVarsF (cs.length + 1) vars cs

/-- `find_variables` (lib.rs:88-104), returning the list of names rather
than its JSON serialization. -/
def findVariables (text : List Char) : List (List Char) :=
  if text = [] ∨ containsBrace text = false then [] else collectVars [] text

/-- `is_match` of the uncaptured placeholder pattern
`\x7b\x7b[^\x7d]+\x7d\x7d`: is there a match anywhere in the text? -/
def hasMatchFrom : List Char → Bool
  | [] => false
  | c :: rest =>
    match tryMatch (c :: rest) with
    | some _ => true
    | none => hasMatchFrom rest

/-- `has_variables` (lib.rs:108-114). -/
def hasVariables (text : List Char) : Bool :=
  if text = [] then false else hasMatchFrom text

/-! ## JSON values (`serde_json::Value`)

Numbers are modelled as integers; the object representation is an ordered
field list in first-occurrence order with last-value-wins on duplicate
keys (the `preserve_order` behaviour the spec describes as "stable key
order as originally parsed"). -/

mutual

inductive JValue where
  | null
  | bool (b : Bool)
  | num (n : Int)
  | str (s : List Char)
  | arr (elems : JArr)
  | obj (fields : JObj)

inductive JArr where
  | nil
  | cons (hd : JValue) (tl : JArr)

inductive JObj where
  | nil
  | cons (key : List Char) (val : JValue) (tl : JObj)

end

/-! Structural size, used as the parser fuel measure. -/

mutual

def jsize : JValue → Nat
  | .null => 1
  | .bool _ => 1
  | .num _ => 1
  | .str _ => 1
  | .arr es => 1 + jsizeA es
  | .obj fs => 1 + jsizeO fs

def jsizeA : JArr → Nat
  | .nil => 0
  | .cons v vs => 1 + jsize v + jsizeA vs

def jsizeO : JObj → Nat
  | .nil => 0
  | .cons _ v fs => 1 + jsize v + jsizeO fs

end

/-! Structural equality of JSON values (`serde_json::Value`'s `PartialEq`);
on the canonical parser representation object fields are in a canonical
order, so field-list equality is used. -/

mutual

def jvBeq : JValue → JValue → Bool
  | .null, .null => true
  | .bool a, .bool b => a == b
  | .num a, .num b => a == b
  | .str a, .str b => a == b
  | .arr a, .arr b => jvBeqA a b
  | .obj a, .obj b => jvBeqO a b
  | _, _ => false

def jvBeqA : JArr → JArr → Bool
  | .nil, .nil => true
  | .cons a az, .cons b bz => jvBeq a b && jvBeqA az bz
  | _, _ => false

def jvBeqO : JObj → JObj → Bool
  | .nil, .nil => true
  | .cons k1 v1 fs, .cons k2 v2 gs => k1 == k2 && jvBeq v1 v2 && jvBeqO fs gs
  | _, _ => false

end

/-! ## Serialization (`serde_json::to_string`, compact) -/

def digitChar (n : Nat) : Char := Char.ofNat (48 + n)

/-- Decimal digits of a natural number, most significant first; the fuel
argument only makes the recursion structural (`n + 1` always suffices). -/
def natToDigitsF : Nat → Nat → List Char
  | 0, _ => []
  | f + 1, n =>
    if n < 10 then [digitChar n]
    else natToDigitsF f (n / 10) ++ [digitChar (n % 10)]

def natToDigits (n : Nat) : List Char := natToDigitsF (n + 1) n

/-- Decimal rendering of an integer (Rust `i64::to_string` and the integer
case of `serde_json` number serialization). -/
def intToString (n : Int) : List Char :=
  if n < 0 then '-' :: natToDigits (-n).toNat else natToDigits n.toNat

def digitVal (c : Char) : Nat := c.toNat - 48

def digitsVal (ds : List Char) : Nat :=
  ds.foldl (fun a c => a * 10 + digitVal c) 0

def hexDigitChar (n : Nat) : Char :=
  if n < 10 then Char.ofNat (48 + n) else Char.ofNat (87 + n)

/-- `serde_json` string escaping: quote and backslash escaped, the five
named control escapes, `\u00XX` for the remaining control characters,
every other scalar emitted raw. -/
def escapeChar (c : Char) : List Char :=
  if c = '"' then ['\\', '"']
  else if c = '\\' then ['\\', '\\']
  else if c = Char.ofNat 8 then ['\\', 'b']
  else if c = Char.ofNat 9 then ['\\', 't']
  else if c = Char.ofNat 10 then ['\\', 'n']
  else if c = Char.ofNat 12 then ['\\', 'f']
  else if c = Char.ofNat 13 then ['\\', 'r']
  else if c.toNat < 32 then
    ['\\', 'u', '0', '0', hexDigitChar (c.toNat / 16), hexDigitChar (c.toNat % 16)]
  else [c]

def serStr (s : List Char) : List Char :=
  '"' :: ((s.map escapeChar).flatten ++ ['"'])

mutual

def serJ : JValue → List Char
  | .null => "null".toList
  | .bool true => "true".toList
  | .bool false => "false".toList
  | .num n => intToString n
  | .str s => serStr s
  | .arr es => '[' :: serArr es
  | .obj fs => '{' :: serObj fs

def serArr : JArr → List Char
  | .nil => [']']
  | .cons v .nil => serJ v ++ [']']
  | .cons v vs => serJ v ++ ',' :: serArr vs

def serObj : JObj → List Char
  | .nil => ['}']
  | .cons k v .nil => serStr k ++ ':' :: serJ v ++ ['}']
  | .cons k v fs => serStr k ++ ':' :: serJ v ++ ',' :: serObj fs

end

/-! ## Parsing (`serde_json::from_str`) -/

def isJsonWsC (c : Char) : Bool :=
  c = ' ' || c = '\t' || c = '\n' || c = '\r'

def skipWs (cs : List Char) : List Char := cs.dropWhile isJsonWsC

def hexVal? (c : Char) : Option Nat :=
  if '0' ≤ c ∧ c ≤ '9' then some (c.toNat - 48)
  else if 'a' ≤ c ∧ c ≤ 'f' then some (c.toNat - 87)
  else if 'A' ≤ c ∧ c ≤ 'F' then some (c.toNat - 55)
  else none

def hex4 (a b c d : Char) : Option Nat :=
  match hexVal? a, hexVal? b, hexVal? c, hexVal? d with
  | some x, some y, some z, some w => some (((x * 16 + y) * 16 + z) * 16 + w)
  | _, _, _, _ => none

/-- A `\uXXXX` escape (input starts after the `u`), combining surrogate
pairs and rejecting lone surrogates, as `serde_json` does. -/
def parseUEsc : List Char → Option (Char × List Char)
  | h1 :: h2 :: h3 :: h4 :: r =>
    match hex4 h1 h2 h3 h4 with
    | none => none
    | some n =>
      if n < 0xD800 ∨ 0xE000 ≤ n then some (Char.ofNat n, r)
      else if n < 0xDC00 then
        match r with
        | '\\' :: 'u' :: g1 :: g2 :: g3 :: g4 :: r2 =>
          match hex4 g1 g2 g3 g4 with
          | none => none
          | some m =>
            if 0xDC00 ≤ m ∧ m < 0xE000 then
              some (Char.ofNat (0x10000 + (n - 0xD800) * 0x400 + (m - 0xDC00)), r2)
            else none
        | _ => none
      else none
  | _ => none

def strCons (c : Char) : Option (List Char × List Char) → Option (List Char × List Char)
  | some (s, r) => some (c :: s, r)
  | none => none

/-- JSON string body (input starts after the opening quote): content up to
the closing quote, with escape processing; raw control characters are
rejected, as in `serde_json`.  The fuel argument only makes the recursion
structural (`cs.length + 1` always suffices). -/
def parseStrBodyF : Nat → List Char → Option (List Char × List Char)
  | 0, _ => none
  | _ + 1, [] => none
  | f + 1, c :: cs =>
    if c = '"' then some ([], cs)
    else if c = '\\' then
      match cs with
      | [] => none
      | e :: cs2 =>
        if e = '"' then strCons '"' (parseStrBodyF f cs2)
        else if e = '\\' then strCons '\\' (parseStrBodyF f cs2)
        else if e = '/' then strCons '/' (parseStrBodyF f cs2)
        else if e = 'b' then strCons (Char.ofNat 8) (parseStrBodyF f cs2)
        else if e = 'f' then strCons (Char.ofNat 12) (parseStrBodyF f cs2)
        else if e = 'n' then strCons (Char.ofNat 10) (parseStrBodyF f cs2)
        else if e = 'r' then strCons (Char.ofNat 13) (parseStrBodyF f cs2)
        else if e = 't' then strCons (Char.ofNat 9) (parseStrBodyF f cs2)
        else if e = 'u' then
          match parseUEsc cs2 with
          | some (c2, r2) => strCons c2 (parseStrBodyF f r2)
          | none => none
        else none
    else if c.toNat < 32 then none
    else strCons c (parseStrBodyF f cs)

def parseStrBody (cs : List Char) : Option (List Char × List Char) :=
  parseStrBodyF (cs.length + 1) cs

/-- The magnitude of a JSON number (input starts at the first digit):
`serde_json`'s integer grammar, rejecting leading zeros.  Fractional and
exponent parts are outside the model (such documents fail to parse). -/
def parseNumMag : List Char → Option (Nat × List Char)
  | '0' :: r =>
    match r with
    | c :: _ => if c.isDigit then none else some (0, r)
    | [] => some (0, [])
  | c :: r =>
    if c.isDigit then
      some (digitsVal ((c :: r).takeWhile Char.isDigit),
            (c :: r).dropWhile Char.isDigit)
    else none
  | [] => none

def lookupField (k : List Char) : JObj → Option JValue
  | .nil => none
  | .cons k' v t => if k' = k then some v else lookupField k t

def eraseField (k : List Char) : JObj → JObj
  | .nil => .nil
  | .cons k' v t => if k' = k then t else .cons k' v (eraseField k t)

/-- Map insertion for object fields being parsed: the current field comes
first; a duplicate later occurrence keeps the later (last-wins) value at
the earlier (first-occurrence) position. -/
def insertFieldFront (k : List Char) (v : JValue) (fs : JObj) : JObj :=
  match lookupField k fs with
  | some v' => .cons k v' (eraseField k fs)
  | none => .cons k v fs

mutual

def parseValue : Nat → List Char → Option (JValue × List Char)
  | 0, _ => none
  | f + 1, cs =>
    match skipWs cs with
    | 'n' :: 'u' :: 'l' :: 'l' :: r => some (.null, r)
    | 't' :: 'r' :: 'u' :: 'e' :: r => some (.bool true, r)
    | 'f' :: 'a' :: 'l' :: 's' :: 'e' :: r => some (.bool false, r)
    | '"' :: r =>
      match parseStrBody r with
      | some (s, r2) => some (.str s, r2)
      | none => none
    | '[' :: r =>
      match skipWs r with
      | ']' :: r2 => some (.arr .nil, r2)
      | r2 =>
        match parseElems f r2 with
        | some (es, r3) => some (.arr es, r3)
        | none => none
    | '{' :: r =>
      match skipWs r with
      | '}' :: r2 => some (.obj .nil, r2)
      | r2 =>
        match parseFields f r2 with
        | some (fs, r3) => some (.obj fs, r3)
        | none => none
    | '-' :: r =>
      match parseNumMag r with
      | some (m, r2) => some (.num (-(m : Int)), r2)
      | none => none
    | c :: r =>
      if c.isDigit then
        match parseNumMag (c :: r) with
        | some (m, r2) => some (.num (m : Int), r2)
        | none => none
      else none
    | [] => none

def parseElems : Nat → List Char → Option (JArr × List Char)
  | 0, _ => none
  | f + 1, cs =>
    match parseValue f cs with
    | some (v, r) =>
      match skipWs r with
      | ',' :: r2 =>
        match parseElems f r2 with
        | some (vs, r3) => some (.cons v vs, r3)
        | none => none
      | ']' :: r2 => some (.cons v .nil, r2)
      | _ => none
    | none => none

def parseFields : Nat → List Char → Option (JObj × List Char)
  | 0, _ => none
  | f + 1, cs =>
    match skipWs cs with
    | '"' :: r =>
      match parseStrBody r with
      | some (k, r1) =>
        match skipWs r1 with
        | ':' :: r2 =>
          match parseValue f r2 with
          | some (v, r3) =>
            match skipWs r3 with
            | ',' :: r4 =>
              match parseFields f r4 with
              | some (fs, r5) => some (insertFieldFront k v fs, r5)
              | none => none
            | '}' :: r4 => some (.cons k v .nil, r4)
            | _ => none
          | none => none
        | _ => none
      | none => none
    | _ => none

end

/-- `serde_json::from_str::<Value>`: parse one value, allow trailing
whitespace, require full consumption. -/
def parseDoc (cs : List Char) : Option JValue :=
  match parseValue cs.length cs with
  | some (v, r) => if skipWs r = [] then some v else none
  | none => none

/-! ## JSON path resolution (`get_json_path`, lib.rs:229-252) -/

/-- `Value::get` with a string key: object field lookup, `none` on
non-objects. -/
def jvGet (v : JValue) (k : List Char) : Option JValue :=
  match v with
  | .obj fs => lookupField k fs
  | _ => none

def jArrGet : JArr → Nat → Option JValue
  | .nil, _ => none
  | .cons v _, 0 => some v
  | .cons _ tl, n + 1 => jArrGet tl n

/-- `Value::get` with a `usize` index: array element, `none` on
non-arrays or out-of-bounds. -/
def jvIdx (v : JValue) (i : Nat) : Option JValue :=
  match v with
  | .arr es => jArrGet es i
  | _ => none

/-- Rust `path.split('.')`: at least one segment; empty segments kept. -/
def splitOnDot : List Char → List (List Char)
  | [] => [[]]
  | '.' :: t => [] :: splitOnDot t
  | c :: t =>
    match splitOnDot t with
    | s :: ss => (c :: s) :: ss
    | [] => [[c]]

/-- Does `cs` match `\[(\d+)\]` exactly (an opening bracket, a nonempty
digit run, a closing bracket, end)?  Returns the index value. -/
def bracketForm (cs : List Char) : Option Nat :=
  match cs with
  | '[' :: rest =>
    if rest.takeWhile Char.isDigit ≠ [] ∧ rest.dropWhile Char.isDigit = [']'] then
      some (digitsVal (rest.takeWhile Char.isDigit))
    else none
  | _ => none

/-- The anchored greedy regex `^(.+)\[(\d+)\]$` of `get_json_path`:
capture the longest nonempty key prefix whose remainder is a single
`[index]` bracket group; returns (key, index).  `.` does not match a
newline, so a key containing `\n` never matches. -/
def reMatch : List Char → Option (List Char × Nat)
  | [] => none
  | c :: rest =>
    if c = '\n' then none
    else
      match reMatch rest with
      | some (k, i) => some (c :: k, i)
      | none =>
        match bracketForm rest with
        | some i => some ([c], i)
        | none => none

/-- One path segment of `get_json_path`'s loop. -/
def pathStep (cur : JValue) (part : List Char) : Option JValue :=
  match reMatch part with
  | some (k, i) =>
    match jvGet cur k with
    | some v2 => jvIdx v2 i
    | none => none
  | none => jvGet cur part

def goPath : JValue → List (List Char) → Option JValue
  | cur, [] => some cur
  | cur, p :: ps =>
    match pathStep cur p with
    | some v2 => goPath v2 ps
    | none => none

/-- `get_json_path` (lib.rs:229-252). -/
def getJsonPath (v : JValue) (path : List Char) : Option JValue :=
  if path = [] then some v else goPath v (splitOnDot path)

/-- `json_extract` (lib.rs:123-133). -/
def jsonExtract (doc path : List Char) : List Char :=
  match parseDoc doc with
  | none => "undefined".toList
  | some v =>
    match getJsonPath v path with
    | some w => serJ w
    | none => "undefined".toList

/-! ## Assertion evaluation (lib.rs:258-661)

The input structures are the post-deserialization forms of the serde
structs; `run_assertions`' serde boundary (unparsable assertion list or
response short-circuiting to `"[]"`) is outside the embedding. -/

structure Assertion where
  id : List Char
  assertionType : List Char
  property : List Char
  operator : List Char
  expected : List Char
  enabled : Bool
  deriving DecidableEq

structure AssertionResult where
  assertionId : List Char
  passed : Bool
  actual : List Char
  message : List Char
  deriving DecidableEq

structure ResponseData where
  statusCode : Int
  headers : List (List Char × List Char)
  body : List Char
  timingMs : Int

/-- The external `regex_lite` engine, reached only by the `matches`
operator on user-supplied patterns: compilation either fails or yields a
matcher predicate. -/
structure RegexEngine where
  compile : List Char → Option (List Char → Bool)

/-- A degenerate engine that rejects every pattern; used to instantiate
engine-polymorphic theorems on inputs whose evaluation never consults the
engine. -/
def nullEngine : RegexEngine := ⟨fun _ => none⟩

/-- Rust `str::parse::<iN>` followed by `unwrap_or(0)`: optional sign, a
nonempty all-digit body, and a range check; anything else gives 0. -/
def parseIntOr0 (lo hi : Int) (cs : List Char) : Int :=
  let core : Int × List Char :=
    match cs with
    | '+' :: t => (1, t)
    | '-' :: t => (-1, t)
    | t => (1, t)
  if core.2 ≠ [] ∧ core.2.all Char.isDigit then
    let v : Int := core.1 * (digitsVal core.2 : Nat)
    if lo ≤ v ∧ v ≤ hi then v else 0
  else 0

def i32Min : Int := -(2 ^ 31)
def i32Max : Int := 2 ^ 31 - 1
def i64Min : Int := -(2 ^ 63)
def i64Max : Int := 2 ^ 63 - 1

/-- Rust `str::contains(&str)`: substring test (the empty needle is always
contained). -/
def isPrefOf : List Char → List Char → Bool
  | [], _ => true
  | _ :: _, [] => false
  | a :: as', b :: bs => a == b && isPrefOf as' bs

def containsSub (hay needle : List Char) : Bool :=
  match hay with
  | [] => needle.isEmpty
  | _ :: t => isPrefOf needle hay || containsSub t needle

/-- `run_status_assertion` (lib.rs:345-391). -/
def runStatusAssertion (a : Assertion) (statusCode : Int) : AssertionResult :=
  let expd := parseIntOr0 i32Min i32Max a.expected
  let actual := intToString statusCode
  let pm : Bool × List Char :=
    if a.operator = "equals".toList then
      (statusCode = expd,
       if statusCode = expd then
         "Status code is ".toList ++ intToString statusCode
       else
         "Expected ".toList ++ intToString expd ++ ", got ".toList ++
           intToString statusCode)
    else if a.operator = "notEquals".toList then
      (statusCode ≠ expd,
       if statusCode ≠ expd then
         "Status code is not ".toList ++ intToString expd
       else
         "Expected not ".toList ++ intToString expd ++ ", got ".toList ++
           intToString statusCode)
    else if a.operator = "lessThan".toList then
      (statusCode < expd,
       if statusCode < expd then
         "Status code ".toList ++ intToString statusCode ++ " < ".toList ++
           intToString expd
       else
         "Expected < ".toList ++ intToString expd ++ ", got ".toList ++
           intToString statusCode)
    else if a.operator = "greaterThan".toList then
      (statusCode > expd,
       if statusCode > expd then
         "Status code ".toList ++ intToString statusCode ++ " > ".toList ++
           intToString expd
       else
         "Expected > ".toList ++ intToString expd ++ ", got ".toList ++
           intToString statusCode)
    else (false, "Unknown operator: ".toList ++ a.operator)
  ⟨a.id, pm.1, actual, pm.2⟩

/-- `run_response_time_assertion` (lib.rs:393-423). -/
def runResponseTimeAssertion (a : Assertion) (timingMs : Int) : AssertionResult :=
  let expd := parseIntOr0 i64Min i64Max a.expected
  let actual := intToString timingMs ++ "ms".toList
  let pm : Bool × List Char :=
    if a.operator = "lessThan".toList then
      (timingMs < expd,
       if timingMs < expd then
         "Response time ".toList ++ intToString timingMs ++ "ms < ".toList ++
           intToString expd ++ "ms".toList
       else
         "Expected < ".toList ++ intToString expd ++ "ms, got ".toList ++
           intToString timingMs ++ "ms".toList)
    else if a.operator = "greaterThan".toList then
      (timingMs > expd,
       if timingMs > expd then
         "Response time ".toList ++ intToString timingMs ++ "ms > ".toList ++
           intToString expd ++ "ms".toList
       else
         "Expected > ".toList ++ intToString expd ++ "ms, got ".toList ++
           intToString timingMs ++ "ms".toList)
    else (false, "Unknown operator: ".toList ++ a.operator)
  ⟨a.id, pm.1, actual, pm.2⟩

/-- UTF-8 byte length of a string (Rust `str::len`). -/
def byteLen (cs : List Char) : Nat := (cs.map Char.utf8Size).sum

/-- The character prefix occupying exactly `n` UTF-8 bytes, when `n` is a
character boundary; `none` models the byte-slice panic `&body[..n]` on a
non-boundary index. -/
def sliceToByte : Nat → List Char → Option (List Char)
  | 0, _ => some []
  | _ + 1, [] => none
  | n + 1, c :: cs =>
    if c.utf8Size ≤ n + 1 then
      match sliceToByte (n + 1 - c.utf8Size) cs with
      | some p => some (c :: p)
      | none => none
    else none

/-- The `actual` computation of `run_body_contains_assertion`
(lib.rs:426-430): `if body.len() > 100 { format!("{}...", &body[..100]) }
else { body.to_string() }`; `none` models the slice panic. -/
def bcActual (body : List Char) : Option (List Char) :=
  if byteLen body > 100 then
    match sliceToByte 100 body with
    | some p => some (p ++ "...".toList)
    | none => none
  else some body

/-- The (passed, message) computation of `run_body_contains_assertion`
(lib.rs:432-464). -/
def bcVerdict (eng : RegexEngine) (a : Assertion) (body : List Char) :
    Bool × List Char :=
  if a.operator = "contains".toList then
        (containsSub body a.expected,
         if containsSub body a.expected then
           "Body contains \"".toList ++ a.expected ++ "\"".toList
         else
           "Body does not contain \"".toList ++ a.expected ++ "\"".toList)
      else if a.operator = "notContains".toList then
        (!containsSub body a.expected,
         if !containsSub body a.expected then
           "Body does not contain \"".toList ++ a.expected ++ "\"".toList
         else
           "Body contains \"".toList ++ a.expected ++ "\"".toList)
      else if a.operator = "matches".toList then
        match eng.compile a.expected with
        | some m =>
          (m body,
           if m body then
             "Body matches pattern \"".toList ++ a.expected ++ "\"".toList
           else
             "Body does not match pattern \"".toList ++ a.expected ++ "\"".toList)
        | none => (false, "Invalid regex pattern: ".toList ++ a.expected)
      else (false, "Unknown operator: ".toList ++ a.operator)

/-- `run_body_contains_assertion` (lib.rs:425-472).  Returns `none` exactly
when `&body[..100]` panics: the body is over 100 bytes and byte 100 is not
a character boundary. -/
def runBodyContainsAssertion (eng : RegexEngine) (a : Assertion)
    (body : List Char) : Option AssertionResult :=
  match bcActual body with
  | none => none
  | some actual =>
    some ⟨a.id, (bcVerdict eng a body).1, actual, (bcVerdict eng a body).2⟩

/-- `run_body_json_assertion` (lib.rs:474-563). -/
def runBodyJsonAssertion (a : Assertion) (bodyJson : Option JValue) :
    AssertionResult :=
  match bodyJson with
  | none => ⟨a.id, false, "Invalid JSON".toList, "Response body is not valid JSON".toList⟩
  | some bj =>
    let value := getJsonPath bj a.property
    let actual : List Char :=
      match value with
      | some v => serJ v
      | none => "undefined".toList
    let pm : Bool × List Char :=
      if a.operator = "exists".toList then
        (value.isSome,
         if value.isSome then
           "Property \"".toList ++ a.property ++ "\" exists".toList
         else
           "Property \"".toList ++ a.property ++ "\" does not exist".toList)
      else if a.operator = "notExists".toList then
        (value.isNone,
         if value.isNone then
           "Property \"".toList ++ a.property ++ "\" does not exist".toList
         else
           "Property \"".toList ++ a.property ++ "\" exists".toList)
      else if a.operator = "equals".toList then
        let expd := (parseDoc a.expected).getD .null
        let eq := match value with
          | some v => jvBeq v expd
          | none => false
        (eq,
         if eq then
           a.property ++ " equals ".toList ++ a.expected
         else
           "Expected ".toList ++ a.expected ++ ", got ".toList ++ actual)
      else if a.operator = "notEquals".toList then
        let expd := (parseDoc a.expected).getD .null
        let neq := match value with
          | some v => !jvBeq v expd
          | none => true
        (neq,
         if neq then
           a.property ++ " does not equal ".toList ++ a.expected
         else
           "Expected not ".toList ++ a.expected ++ ", got ".toList ++ actual)
      else if a.operator = "contains".toList then
        let ctn := match value with
          | some v => containsSub (serJ v) a.expected
          | none => false
        (ctn,
         if ctn then
           a.property ++ " contains \"".toList ++ a.expected ++ "\"".toList
         else
           a.property ++ " does not contain \"".toList ++ a.expected ++ "\"".toList)
      else (false, "Unknown operator: ".toList ++ a.operator)
    ⟨a.id, pm.1, actual, pm.2⟩

/-- ASCII lowercasing of a name, modelling `str::to_lowercase` on header
names (header names are ASCII in practice). -/
def lowerName (cs : List Char) : List Char := cs.map Char.toLower

/-- `run_header_exists_assertion` (lib.rs:565-599). -/
def runHeaderExistsAssertion (a : Assertion)
    (headers : List (List Char × List Char)) : AssertionResult :=
  let hname := lowerName a.property
  let found := headers.any (fun kv => lowerName kv.1 == hname)
  let actual := if found then "exists".toList else "not found".toList
  let pm : Bool × List Char :=
    if a.operator = "exists".toList then
      (found,
       if found then
         "Header \"".toList ++ a.property ++ "\" exists".toList
       else
         "Header \"".toList ++ a.property ++ "\" not found".toList)
    else if a.operator = "notExists".toList then
      (!found,
       if !found then
         "Header \"".toList ++ a.property ++ "\" does not exist".toList
       else
         "Header \"".toList ++ a.property ++ "\" exists".toList)
    else (false, "Unknown operator: ".toList ++ a.operator)
  ⟨a.id, pm.1, actual, pm.2⟩

/-- `run_header_equals_assertion` (lib.rs:601-661).  `HashMap` iteration
order is unspecified in Rust; the model takes the first list entry whose
lowercased key matches. -/
def runHeaderEqualsAssertion (a : Assertion)
    (headers : List (List Char × List Char)) : AssertionResult :=
  let hname := lowerName a.property
  let hval := (headers.find? (fun kv => lowerName kv.1 == hname)).map (·.2)
  let actual := hval.getD "not found".toList
  let pm : Bool × List Char :=
    match hval with
    | none => (false, "Header \"".toList ++ a.property ++ "\" not found".toList)
    | some v =>
      if a.operator = "equals".toList then
        (v = a.expected,
         if v = a.expected then
           "Header \"".toList ++ a.property ++ "\" equals \"".toList ++
             a.expected ++ "\"".toList
         else
           "Expected \"".toList ++ a.expected ++ "\", got \"".toList ++ v ++
             "\"".toList)
      else if a.operator = "notEquals".toList then
        (v ≠ a.expected,
         if v ≠ a.expected then
           "Header \"".toList ++ a.property ++ "\" does not equal \"".toList ++
             a.expected ++ "\"".toList
         else
           "Expected not \"".toList ++ a.expected ++ "\", got \"".toList ++ v ++
             "\"".toList)
      else if a.operator = "contains".toList then
        (containsSub v a.expected,
         if containsSub v a.expected then
           "Header \"".toList ++ a.property ++ "\" contains \"".toList ++
             a.expected ++ "\"".toList
         else
           "Header does not contain \"".toList ++ a.expected ++ "\"".toList)
      else (false, "Unknown operator: ".toList ++ a.operator)
  ⟨a.id, pm.1, actual, pm.2⟩

/-- `run_single_assertion` (lib.rs:315-343); `none` models a panic
propagating out of the body-contains byte slice. -/
def runSingleAssertion (eng : RegexEngine) (a : Assertion)
    (resp : ResponseData) (bodyJson : Option JValue) : Option AssertionResult :=
  if a.enabled = false then
    some ⟨a.id, true, [], "Skipped (disabled)".toList⟩
  else if a.assertionType = "status".toList then
    some (runStatusAssertion a resp.statusCode)
  else if a.assertionType = "responseTime".toList then
    some (runResponseTimeAssertion a resp.timingMs)
  else if a.assertionType = "bodyContains".toList then
    runBodyContainsAssertion eng a resp.body
  else if a.assertionType = "bodyJson".toList then
    some (runBodyJsonAssertion a bodyJson)
  else if a.assertionType = "headerExists".toList then
    some (runHeaderExistsAssertion a resp.headers)
  else if a.assertionType = "headerEquals".toList then
    some (runHeaderEqualsAssertion a resp.headers)
  else
    some ⟨a.id, false, [], "Unknown assertion type: ".toList ++ a.assertionType⟩

/-- Option-valued map: the element order of Rust's `iter().map().collect()`
with panic propagation (`none` as soon as one element panics). -/
def mapO (f : α → Option β) : List α → Option (List β)
  | [] => some []
  | x :: xs =>
    match f x, mapO f xs with
    | some y, some ys => some (y :: ys)
    | _, _ => none

/-- `run_assertions` (lib.rs:293-313), after deserialization of the inputs:
the body is parsed as JSON once and shared across assertions. -/
def runAssertions (eng : RegexEngine) (assertions : List Assertion)
    (resp : ResponseData) : Option (List AssertionResult) :=
  mapO (fun a => runSingleAssertion eng a resp (parseDoc resp.body)) assertions

/-! ## Well-formed values (distinct object keys)

`serde_json` maps cannot hold duplicate keys, so every parsed value
satisfies `wfJ`; serialization is injectively invertible on such values. -/

def keysO : JObj → List (List Char)
  | .nil => []
  | .cons k _ fs => k :: keysO fs

def nodupKeysO : JObj → Bool
  | .nil => true
  | .cons k _ fs => !(keysO fs).contains k && nodupKeysO fs

mutual

def wfJ : JValue → Bool
  | .null => true
  | .bool _ => true
  | .num _ => true
  | .str _ => true
  | .arr es => wfA es
  | .obj fs => nodupKeysO fs && wfO fs

def wfA : JArr → Bool
  | .nil => true
  | .cons v vs => wfJ v && wfA vs

def wfO : JObj → Bool
  | .nil => true
  | .cons _ v fs => wfJ v && wfO fs

end

/-! ## The specification's reading of path resolution (claim C4) -/

/-- Claim C4's reading of the `key[index]` segment form, computed from the
segment's reverse: the segment ends with `]`, preceded by a nonempty digit
run, preceded by `[`, preceded by a nonempty key (everything before that
last bracket group).  Matching the segment pattern's `.` (which does not
cross newlines), the key may not contain `\n`. -/
def specDecompose (part : List Char) : Option (List Char × Nat) :=
  match part.reverse with
  | ']' :: rrest =>
    match rrest.dropWhile Char.isDigit with
    | '[' :: rkey =>
      if rrest.takeWhile Char.isDigit ≠ [] ∧ rkey ≠ [] ∧
          rkey.all (fun c => c ≠ '\n') then
        some (rkey.reverse, digitsVal (rrest.takeWhile Char.isDigit).reverse)
      else none
    | _ => none
  | _ => none

/-- Claim C4's per-segment rule: a segment matching `key[index]` is an
object-field lookup (failing if the node is not an object or lacks the
field) followed by an array index (failing if not an array or out of
bounds); any other segment is wholly an object field name. -/
def pathStepSpec (cur : JValue) (part : List Char) : Option JValue :=
  match specDecompose part with
  | some (k, i) =>
    match cur with
    | .obj fs =>
      match lookupField k fs with
      | some (.arr es) => jArrGet es i
      | _ => none
    | _ => none
  | none =>
    match cur with
    | .obj fs => lookupField part fs
    | _ => none

/-- Claim C4's resolver: the empty path yields the document itself;
otherwise the dot-split segments are processed left to right with failure
propagation and no partial result. -/
def getJsonPathSpec (v : JValue) (path : List Char) : Option JValue :=
  if path = [] then some v
  else (splitOnDot path).foldl
    (fun acc seg => acc.bind (fun cur => pathStepSpec cur seg)) (some v)

/-! ## Concrete data for the code-bug and counterexample theorems -/

/-- An enabled bodyContains assertion (claim C1's failing input). -/
def c1Assertion : Assertion :=
  ⟨"a1".toList, "bodyContains".toList, [], "contains".toList, "x".toList, true⟩

/-- A response whose body is 99 one-byte characters followed by a two-byte
character: 101 bytes, and byte 100 is not a character boundary. -/
def c1Response : ResponseData :=
  ⟨200, [], List.replicate 99 'a' ++ ['é'], 5⟩

/-- An enabled bodyContains assertion (claim C2's counterexample). -/
def c2Assertion : Assertion :=
  ⟨"b1".toList, "bodyContains".toList, [], "contains".toList, "x".toList, true⟩

/-- 51 two-byte characters: 51 characters but 102 UTF-8 bytes. -/
def c2Body : List Char := List.replicate 51 'é'

def c2wAssertion : Assertion :=
  ⟨"b2".toList, "bodyContains".toList, [], "contains".toList, "x".toList, true⟩

def c2wResult : AssertionResult :=
  ⟨"b2".toList, false, "hello".toList, "Body does not contain \"x\"".toList⟩

/-- An enabled bodyContains assertion (claim C6's counterexample). -/
def c6Assertion : Assertion :=
  ⟨"c1".toList, "bodyContains".toList, [], "notContains".toList, "q".toList, true⟩

def c6Response : ResponseData :=
  ⟨404, [], List.replicate 99 'a' ++ ['é', 'x'], 7⟩

def c6wAssertion : Assertion :=
  ⟨"w1".toList, "status".toList, [], "equals".toList, "200".toList, true⟩

def c6wResponse : ResponseData := ⟨200, [], "ok".toList, 3⟩

def c6wResult : AssertionResult :=
  ⟨"w1".toList, true, "200".toList, "Status code is 200".toList⟩

def c5Assertion : Assertion :=
  ⟨"d1".toList, "someBogusType".toList, "p".toList, "someBogusOp".toList,
    "e".toList, false⟩

def c5Response : ResponseData := ⟨500, [], "body".toList, 9⟩

def c8Response : ResponseData := ⟨200, [], "not json".toList, 11⟩

def c8Assertion : Assertion :=
  ⟨"e1".toList, "bodyJson".toList, "user.age".toList, "notExists".toList,
    "30".toList, true⟩

def c8Status : Assertion :=
  ⟨"e2".toList, "status".toList, [], "equals".toList, "200".toList, true⟩

def c8Results : List AssertionResult :=
  [⟨"e1".toList, false, "Invalid JSON".toList,
     "Response body is not valid JSON".toList⟩,
   ⟨"e2".toList, true, "200".toList, "Status code is 200".toList⟩]

/-- The continuations that can follow a serialized value inside a larger
serialized document: nothing (top level), or a separator/closer. -/
def restOk (rest : List Char) : Prop :=
  rest = [] ∨ ∃ c t, rest = c :: t ∧ (c = ',' ∨ c = ']' ∨ c = '}')

/-- A concrete document for exercising the extract/re-parse round trip. -/
def c7Doc : List Char := '{' :: ("\"a\":[1,2]".toList ++ ['}'])

def c7Path : List Char := "a[1]".toList

def c7Val : JValue :=
  .obj (.cons ['a'] (.arr (.cons (.num 1) (.cons (.num 2) .nil))) .nil)

/-! # Theorems

First generic helper lemmas about the embedded operations, then one
theorem per specification claim (with witnesses and counterexamples). -/

/-! ## Placeholder matching -/

theorem tryMatchInner_some {rest int aft2}
    (h : tryMatchInner rest = some (int, aft2)) :
    rest = int ++ '}' :: '}' :: aft2 ∧ int ≠ [] ∧ '}' ∉ int := by
  unfold tryMatchInner at h
  split at h
  · next i tl a2 heq1 heq2 =>
    injection h with h1
    injection h1 with h1 h2
    subst h2
    refine ⟨?_, ?_, ?_⟩
    · have hh := List.takeWhile_append_dropWhile (p := fun c => c ≠ '}') (l := rest)
      rw [heq2] at hh
      rw [← h1]
      exact hh.symm
    · rw [← h1, heq1]; simp
    · intro hm
      rw [← h1] at hm
      have := List.mem_takeWhile_imp hm
      simp at this
  · exact absurd h (by simp)

theorem tryMatch_some {cs int aft2} (h : tryMatch cs = some (int, aft2)) :
    cs = '{' :: '{' :: (int ++ '}' :: '}' :: aft2) ∧ int ≠ [] ∧ '}' ∉ int := by
  unfold tryMatch at h
  split at h
  next rest =>
    obtain ⟨h1, h2, h3⟩ := tryMatchInner_some h
    exact ⟨by rw [← h1], h2, h3⟩
  next => simp at h

/-! ## Byte-level truncation -/

theorem sliceToByte_spec : ∀ {n : Nat} {body p : List Char},
    sliceToByte n body = some p → (∃ suf, body = p ++ suf) ∧ byteLen p = n := by
  intro n body
  induction body generalizing n with
  | nil =>
    intro p h
    cases n with
    | zero =>
      simp only [sliceToByte] at h
      injection h with h
      subst h
      exact ⟨⟨[], rfl⟩, rfl⟩
    | succ n => simp [sliceToByte] at h
  | cons c cs ih =>
    intro p h
    cases n with
    | zero =>
      simp only [sliceToByte] at h
      injection h with h
      subst h
      exact ⟨⟨c :: cs, rfl⟩, rfl⟩
    | succ n =>
      unfold sliceToByte at h
      split at h
      · next hsz =>
        split at h
        · next p' heq =>
          injection h with h
          subst h
          obtain ⟨⟨suf, hsuf⟩, hlen⟩ := ih heq
          refine ⟨⟨suf, by simp [hsuf]⟩, ?_⟩
          simp only [byteLen, List.map_cons, List.sum_cons] at hlen ⊢
          omega
        · simp at h
      · simp at h

/-! ## Result collection -/

theorem mapO_length {α β} {f : α → Option β} :
    ∀ {xs : List α} {ys : List β}, mapO f xs = some ys → ys.length = xs.length := by
  intro xs
  induction xs with
  | nil =>
    intro ys h
    simp only [mapO] at h
    injection h with h
    subst h
    rfl
  | cons x xs ih =>
    intro ys h
    unfold mapO at h
    split at h
    · next y ys' hy hys =>
      injection h with h
      subst h
      simp [ih hys]
    · simp at h

theorem mapO_get {α β} {f : α → Option β} :
    ∀ {xs : List α} {ys : List β}, mapO f xs = some ys →
      ∀ (i : Nat) (h1 : i < xs.length) (h2 : i < ys.length),
        f (xs.get ⟨i, h1⟩) = some (ys.get ⟨i, h2⟩) := by
  intro xs
  induction xs with
  | nil =>
    intro ys h i h1 h2
    simp at h1
  | cons x xs ih =>
    intro ys h i h1 h2
    unfold mapO at h
    split at h
    · next y ys' hy hys =>
      injection h with h
      subst h
      cases i with
      | zero => simpa using hy
      | succ j => exact ih hys j (by simpa using h1) (by simpa using h2)
    · simp at h

theorem runSingleAssertion_id {eng : RegexEngine} {a : Assertion}
    {resp : ResponseData} {bj : Option JValue} {r : AssertionResult}
    (h : runSingleAssertion eng a resp bj = some r) : r.assertionId = a.id := by
  unfold runSingleAssertion at h
  split_ifs at h
  all_goals try (injection h with h; subst h; cases bj <;> rfl)
  unfold runBodyContainsAssertion at h
  split at h
  · simp at h
  · injection h with h
    subst h
    rfl

theorem runSingleAssertion_indep {a : Assertion}
    (hty : a.assertionType ≠ "bodyJson".toList) (eng : RegexEngine)
    (resp : ResponseData) (bj bj' : Option JValue) :
    runSingleAssertion eng a resp bj = runSingleAssertion eng a resp bj' := by
  unfold runSingleAssertion
  split_ifs with h1 h2 h3 h4 h5
  all_goals first
  | rfl
  | exact absurd h5 hty

/-! ## Claim C5 -/

/-- Claim C5: an assertion whose `enabled` field is false always yields
passed with empty `actual` and message "Skipped (disabled)", for every
engine, type, operator, expected, response and shared body-parse outcome;
accordingly, inside any completed `runAssertions` call, every disabled
assertion's slot in the result list is exactly this fixed record. -/
theorem disabled_assertion_always_skips :
    (∀ (eng : RegexEngine) (a : Assertion) (resp : ResponseData)
       (bj : Option JValue), a.enabled = false →
       runSingleAssertion eng a resp bj =
         some ⟨a.id, true, [], "Skipped (disabled)".toList⟩) ∧
    (∀ (eng : RegexEngine) (assertions : List Assertion) (resp : ResponseData)
       (rs : List AssertionResult) (i : Nat)
       (h1 : i < assertions.length) (h2 : i < rs.length),
       runAssertions eng assertions resp = some rs →
       (assertions.get ⟨i, h1⟩).enabled = false →
       rs.get ⟨i, h2⟩ =
         ⟨(assertions.get ⟨i, h1⟩).id, true, [], "Skipped (disabled)".toList⟩) := by
  constructor
  · intro eng a resp bj h
    unfold runSingleAssertion
    rw [if_pos h]
  · intro eng as resp rs i h1 h2 hrun hdis
    unfold runAssertions at hrun
    have hsingle := mapO_get hrun i h1 h2
    unfold runSingleAssertion at hsingle
    rw [if_pos hdis] at hsingle
    injection hsingle with hsingle
    exact hsingle.symm

theorem disabled_assertion_always_skips_witness :
    runSingleAssertion nullEngine c5Assertion c5Response none =
      some ⟨c5Assertion.id, true, [], "Skipped (disabled)".toList⟩ :=
  disabled_assertion_always_skips.1 nullEngine c5Assertion c5Response none (by rfl)

/-! ## Claim C1 -/

/-- Claim C1 (code bug): `runAssertions` is not total.  On an enabled
bodyContains assertion and a response body whose 100th byte falls inside a
multi-byte character (99 one-byte characters followed by a two-byte one),
the byte slice `&body[..100]` in `run_body_contains_assertion` panics, so
no result is returned at all — modelled by `none`. -/
theorem runAssertions_panics_on_multibyte_boundary :
    runAssertions nullEngine [c1Assertion] c1Response = none := by rfl

/-! ## Claim C2 -/

/-- Claim C2 (counterexample): this 51-character body is not longer than
100 characters, so the claim requires `actual` to be the full body — but
the code truncates whenever the body exceeds 100 UTF-8 *bytes*, producing
a 50-character prefix plus the ellipsis marker here. -/
theorem bodyContains_truncates_at_bytes_not_chars :
    c2Body.length ≤ 100 ∧
    (runBodyContainsAssertion nullEngine c2Assertion c2Body).map
        AssertionResult.actual =
      some (List.replicate 50 'é' ++ "...".toList) ∧
    List.replicate 50 'é' ++ "...".toList ≠ c2Body := by
  refine ⟨by decide, by rfl, by decide⟩

/-- Claim C2 (amended): for every bodyContains evaluation that completes,
`actual` is the full body when the body occupies at most 100 UTF-8 bytes,
and otherwise the body's unique 100-byte character prefix followed by the
ellipsis marker (evaluation only completes when byte 100 is a character
boundary); the contains/notContains substring tests — and the compiled
`matches` pattern — are applied to the full untruncated body. -/
theorem bodyContains_bytes_truncation :
    ∀ (eng : RegexEngine) (a : Assertion) (body : List Char)
      (r : AssertionResult),
      runBodyContainsAssertion eng a body = some r →
      (byteLen body ≤ 100 → r.actual = body) ∧
      (100 < byteLen body →
        ∃ p suf, body = p ++ suf ∧ byteLen p = 100 ∧
          r.actual = p ++ "...".toList) ∧
      (a.operator = "contains".toList →
        r.passed = containsSub body a.expected) ∧
      (a.operator = "notContains".toList →
        r.passed = !containsSub body a.expected) ∧
      (∀ m, a.operator = "matches".toList → eng.compile a.expected = some m →
        r.passed = m body) := by
  intro eng a body r h
  unfold runBodyContainsAssertion at h
  cases hba : bcActual body with
  | none => rw [hba] at h; exact absurd h (by simp)
  | some actual =>
    rw [hba] at h
    injection h with h
    subst h
    refine ⟨?_, ?_, ?_, ?_, ?_⟩
    · intro hle
      unfold bcActual at hba
      rw [if_neg (by omega)] at hba
      injection hba with hba
      simpa using hba.symm
    · intro hgt
      unfold bcActual at hba
      rw [if_pos (by omega)] at hba
      cases hs : sliceToByte 100 body with
      | none => rw [hs] at hba; simp at hba
      | some p =>
        rw [hs] at hba
        injection hba with hba
        obtain ⟨⟨suf, hsuf⟩, hlen⟩ := sliceToByte_spec hs
        exact ⟨p, suf, hsuf, hlen, by simpa using hba.symm⟩
    · intro hop
      show (bcVerdict eng a body).1 = _
      unfold bcVerdict
      rw [hop, if_pos rfl]
    · intro hop
      show (bcVerdict eng a body).1 = _
      unfold bcVerdict
      rw [hop, if_neg (by decide), if_pos rfl]
    · intro m hop hc
      show (bcVerdict eng a body).1 = _
      unfold bcVerdict
      rw [hop, if_neg (by decide), if_neg (by decide), if_pos rfl, hc]

theorem bodyContains_bytes_truncation_witness :
    c2wResult.actual = "hello".toList :=
  (bodyContains_bytes_truncation nullEngine c2wAssertion "hello".toList
    c2wResult (by rfl)).1 (by decide)

/-! ## Claim C6 -/

/-- Claim C6 (counterexample): on this assertion list and response the
call returns no result list at all (the body-truncation byte slice
panics), so there is not one result per input assertion. -/
theorem runAssertions_missing_result_on_panic :
    runAssertions nullEngine [c6Assertion] c6Response = none := by rfl

/-- Claim C6 (amended): whenever `runAssertions` returns a result list
(no body-truncation panic occurs), the list has exactly one result per
input assertion, in input order, with each result's `assertionId` copied
from the corresponding assertion's `id`. -/
theorem runAssertions_length_order :
    ∀ (eng : RegexEngine) (assertions : List Assertion) (resp : ResponseData)
      (rs : List AssertionResult),
      runAssertions eng assertions resp = some rs →
      rs.length = assertions.length ∧
      ∀ (i : Nat) (h1 : i < rs.length) (h2 : i < assertions.length),
        (rs.get ⟨i, h1⟩).assertionId = (assertions.get ⟨i, h2⟩).id := by
  intro eng as resp rs h
  unfold runAssertions at h
  refine ⟨mapO_length h, ?_⟩
  intro i h1 h2
  exact runSingleAssertion_id (mapO_get h i h2 h1)

theorem runAssertions_length_order_witness :
    [c6wResult].length = [c6wAssertion].length :=
  (runAssertions_length_order nullEngine [c6wAssertion] c6wResponse
    [c6wResult] (by rfl)).1

/-! ## Claim C8 -/

/-- Claim C8: when the response body fails to parse as JSON, every enabled
bodyJson assertion in the call — whatever its operator, including
notExists — yields passed=false with actual "Invalid JSON" and message
"Response body is not valid JSON"; every assertion of a different type in
the same call gets the result it would get under any body-parse outcome
whatsoever (it is unaffected). -/
theorem bodyJson_invalid_body :
    ∀ (eng : RegexEngine) (assertions : List Assertion) (resp : ResponseData)
      (rs : List AssertionResult),
      parseDoc resp.body = none →
      runAssertions eng assertions resp = some rs →
      ∀ (i : Nat) (h1 : i < assertions.length) (h2 : i < rs.length),
        ((assertions.get ⟨i, h1⟩).enabled = true →
         (assertions.get ⟨i, h1⟩).assertionType = "bodyJson".toList →
         rs.get ⟨i, h2⟩ =
           ⟨(assertions.get ⟨i, h1⟩).id, false, "Invalid JSON".toList,
            "Response body is not valid JSON".toList⟩) ∧
        ((assertions.get ⟨i, h1⟩).assertionType ≠ "bodyJson".toList →
         ∀ bj : Option JValue,
           runSingleAssertion eng (assertions.get ⟨i, h1⟩) resp bj =
             some (rs.get ⟨i, h2⟩)) := by
  intro eng as resp rs hpb hrun i h1 h2
  unfold runAssertions at hrun
  have hsingle := mapO_get hrun i h1 h2
  rw [hpb] at hsingle
  constructor
  · intro hen hty
    unfold runSingleAssertion at hsingle
    rw [if_neg (by rw [hen]; simp), if_neg (by rw [hty]; decide),
        if_neg (by rw [hty]; decide), if_neg (by rw [hty]; decide),
        if_pos hty] at hsingle
    unfold runBodyJsonAssertion at hsingle
    injection hsingle with hsingle
    exact hsingle.symm
  · intro hty bj
    rw [runSingleAssertion_indep hty eng resp bj none]
    exact hsingle

theorem bodyJson_invalid_body_witness :
    c8Results.get ⟨0, by decide⟩ =
      ⟨"e1".toList, false, "Invalid JSON".toList,
       "Response body is not valid JSON".toList⟩ :=
  ((bodyJson_invalid_body nullEngine [c8Assertion, c8Status] c8Response
      c8Results (by rfl) (by rfl) 0 (by decide) (by decide)).1 (by rfl) (by rfl))

/-! ## Placeholder scanning lemmas (claims C9, C10) -/

theorem tryMatch_length {cs int aft2} (h : tryMatch cs = some (int, aft2)) :
    aft2.length + 5 ≤ cs.length := by
  obtain ⟨rfl, hne, -⟩ := tryMatch_some h
  cases int with
  | nil => exact absurd rfl hne
  | cons c t => simp [List.length_append]

theorem tryMatch_not_brace {c : Char} {rest : List Char} (h : c ≠ '{') :
    tryMatch (c :: rest) = none := by
  unfold tryMatch
  split
  · next rest' heq =>
    injection heq with h1 _
    exact absurd h1 h
  · rfl

theorem takeWhile_brace_append {int post : List Char} (h : '}' ∉ int) :
    (int ++ '}' :: post).takeWhile (fun c => c ≠ '}') = int ∧
    (int ++ '}' :: post).dropWhile (fun c => c ≠ '}') = '}' :: post := by
  induction int with
  | nil => simp
  | cons c t ih =>
    simp only [List.mem_cons, not_or] at h
    obtain ⟨h1, h2⟩ := h
    have hcc : c ≠ '}' := fun hh => h1 hh.symm
    obtain ⟨ht, hd⟩ := ih h2
    refine ⟨?_, ?_⟩
    · rw [List.cons_append, List.takeWhile_cons, if_pos (by simp [hcc]), ht]
    · rw [List.cons_append, List.dropWhile_cons, if_pos (by simp [hcc]), hd]

theorem tryMatchInner_at {int post : List Char} (hne : int ≠ [])
    (hnb : '}' ∉ int) :
    tryMatchInner (int ++ '}' :: '}' :: post) = some (int, post) := by
  obtain ⟨tw, dw⟩ := @takeWhile_brace_append _ ('}' :: post) hnb
  unfold tryMatchInner
  rw [tw, dw]
  cases int with
  | nil => exact absurd rfl hne
  | cons c t => rfl

theorem tryMatch_at {int post : List Char} (hne : int ≠ [])
    (hnb : '}' ∉ int) :
    tryMatch ('{' :: '{' :: (int ++ '}' :: '}' :: post)) = some (int, post) := by
  unfold tryMatch
  exact tryMatchInner_at hne hnb

theorem scanSubF_succ_cons (vars : List (List Char × List Char)) (f : Nat)
    (c : Char) (rest : List Char) :
    scanSubF vars (f + 1) (c :: rest) =
      match tryMatch (c :: rest) with
      | some (int, aft2) =>
        match assocLookup (rustTrim int) vars with
        | some v => v ++ scanSubF vars f aft2
        | none => '{' :: '{' :: (int ++ '}' :: '}' :: scanSubF vars f aft2)
      | none => c :: scanSubF vars f rest := rfl

theorem scanSubF_fuel {vars : List (List Char × List Char)} :
    ∀ {f g : Nat} {cs : List Char}, cs.length < f → cs.length < g →
      scanSubF vars f cs = scanSubF vars g cs := by
  intro f
  induction f with
  | zero => intro g cs h; omega
  | succ f ih =>
    intro g cs hf hg
    cases g with
    | zero => omega
    | succ g =>
      cases cs with
      | nil => rfl
      | cons c rest =>
        cases htm : tryMatch (c :: rest) with
        | some p =>
          obtain ⟨int, aft2⟩ := p
          have hlen := tryMatch_length htm
          simp only [List.length_cons] at hf hg hlen
          have h1 : aft2.length < f := by omega
          have h2 : aft2.length < g := by omega
          simp only [scanSubF_succ_cons, htm]
          cases assocLookup (rustTrim int) vars with
          | some v => simp [ih h1 h2]
          | none => simp [ih h1 h2]
        | none =>
          simp only [List.length_cons] at hf hg
          have h1 : rest.length < f := by omega
          have h2 : rest.length < g := by omega
          simp only [scanSubF_succ_cons, htm]
          rw [ih h1 h2]

theorem scanSub_cons_nomatch {vars : List (List Char × List Char)}
    {c : Char} {rest : List Char} (h : tryMatch (c :: rest) = none) :
    scanSub vars (c :: rest) = c :: scanSub vars rest := by
  unfold scanSub
  simp only [List.length_cons, scanSubF_succ_cons, h]

theorem scanSub_cons_match {vars : List (List Char × List Char)}
    {c : Char} {rest int aft2 : List Char}
    (h : tryMatch (c :: rest) = some (int, aft2)) :
    scanSub vars (c :: rest) =
      match assocLookup (rustTrim int) vars with
      | some v => v ++ scanSub vars aft2
      | none => '{' :: '{' :: (int ++ '}' :: '}' :: scanSub vars aft2) := by
  have hlen := tryMatch_length h
  simp only [List.length_cons] at hlen
  have hfe : scanSubF vars (rest.length + 1) aft2 =
      scanSubF vars (aft2.length + 1) aft2 :=
    scanSubF_fuel (by omega) (by omega)
  unfold scanSub
  simp only [List.length_cons, scanSubF_succ_cons, h]
  simp only [hfe]

theorem scanSub_empty_vars : ∀ {f : Nat} {cs : List Char}, cs.length < f →
    scanSubF [] f cs = cs := by
  intro f
  induction f with
  | zero => intro cs h; omega
  | succ f ih =>
    intro cs hf
    cases cs with
    | nil => rfl
    | cons c rest =>
      cases htm : tryMatch (c :: rest) with
      | some p =>
        obtain ⟨int, aft2⟩ := p
        have hlen := tryMatch_length htm
        simp only [List.length_cons] at hf hlen
        obtain ⟨hcs, -, -⟩ := tryMatch_some htm
        simp only [scanSubF_succ_cons, htm, assocLookup]
        rw [ih (by omega)]
        injection hcs with h1 h2
        rw [h1, h2]
      | none =>
        simp only [List.length_cons] at hf
        simp only [scanSubF_succ_cons, htm]
        rw [ih (by omega)]

theorem scanSub_append_nobrace {vars : List (List Char × List Char)} :
    ∀ {pre t : List Char}, '{' ∉ pre →
      scanSub vars (pre ++ t) = pre ++ scanSub vars t := by
  intro pre
  induction pre with
  | nil => intro t _; rfl
  | cons c pre' ih =>
    intro t h
    simp only [List.mem_cons, not_or] at h
    obtain ⟨h1, h2⟩ := h
    rw [List.cons_append,
        scanSub_cons_nomatch (tryMatch_not_brace (fun hh => h1 hh.symm)),
        ih h2, List.cons_append]

theorem containsBrace_append_pl (pre int post : List Char) :
    containsBrace (pre ++ '{' :: '{' :: (int ++ '}' :: '}' :: post)) = true := by
  induction pre with
  | nil => simp [containsBrace]
  | cons c t ih => simp [containsBrace, ih]

/-! ## Claim C9 -/

/-- Claim C9: for every variable table, every prefix free of opening
braces, every nonempty placeholder interior free of closing braces and
every tail: when the trimmed interior is absent from the table the output
retains the exact original placeholder text, untrimmed interior included;
when it is present the placeholder is replaced by the table's value.  (The
tail is processed by the same scan; an empty table leaves it unchanged.) -/
theorem substitute_placeholder_exact :
    ∀ (vars : List (List Char × List Char)) (pre int post : List Char),
      '{' ∉ pre → int ≠ [] → '}' ∉ int →
      substituteVariables (pre ++ '{' :: '{' :: (int ++ '}' :: '}' :: post)) vars =
        pre ++
        (match assocLookup (rustTrim int) vars with
         | some v => v
         | none => '{' :: '{' :: (int ++ ['}', '}'])) ++
        scanSub vars post := by
  intro vars pre int post hpre hne hnb
  unfold substituteVariables
  rw [if_neg (by
    simp only [not_or]
    exact ⟨by simp, by simp [containsBrace_append_pl]⟩)]
  by_cases hv : vars = []
  · subst hv
    rw [if_pos rfl]
    simp only [assocLookup]
    have : scanSub ([] : List (List Char × List Char)) post = post :=
      scanSub_empty_vars (by omega)
    rw [this]
    simp
  · rw [if_neg hv]
    rw [scanSub_append_nobrace hpre, scanSub_cons_match (tryMatch_at hne hnb)]
    cases assocLookup (rustTrim int) vars with
    | some v => simp
    | none => simp

theorem substitute_placeholder_exact_witness :
    substituteVariables
        ("x".toList ++ '{' :: '{' :: (" missing ".toList ++ '}' :: '}' :: "/end".toList))
        [("baseUrl".toList, "api.example.com".toList)] =
      "x".toList ++
      (match assocLookup (rustTrim " missing ".toList)
          [("baseUrl".toList, "api.example.com".toList)] with
       | some v => v
       | none => '{' :: '{' :: (" missing ".toList ++ ['}', '}'])) ++
      scanSub [("baseUrl".toList, "api.example.com".toList)] "/end".toList :=
  substitute_placeholder_exact [("baseUrl".toList, "api.example.com".toList)]
    "x".toList " missing ".toList "/end".toList (by decide) (by decide) (by decide)

/-! ## Claim C10 -/

theorem hasMatchFrom_cons (c : Char) (rest : List Char) :
    hasMatchFrom (c :: rest) =
      match tryMatch (c :: rest) with
      | some _ => true
      | none => hasMatchFrom rest := rfl

theorem collectVarsF_succ_cons (f : Nat) (acc : List (List Char)) (c : Char)
    (rest : List Char) :
    collectVarsF (f + 1) acc (c :: rest) =
      match tryMatch (c :: rest) with
      | some (int, aft2) =>
        collectVarsF f
          (if acc.contains (rustTrim int) then acc else acc ++ [rustTrim int])
          aft2
      | none => collectVarsF f acc rest := rfl

theorem notBrace_noMatch : ∀ {t : List Char}, containsBrace t = false →
    hasMatchFrom t = false := by
  intro t
  induction t with
  | nil => intro _; rfl
  | cons c rest ih =>
    intro h
    simp only [containsBrace, Bool.or_eq_false_iff] at h
    obtain ⟨h1, h2⟩ := h
    rw [hasMatchFrom_cons]
    cases htm : tryMatch (c :: rest) with
    | some p =>
      obtain ⟨int, aft2⟩ := p
      obtain ⟨hcs, -, -⟩ := tryMatch_some htm
      exfalso
      injection hcs with hc hrest
      rw [hc, hrest] at h1
      simp at h1
    | none => exact ih h2

theorem collectVarsF_fuel_acc : ∀ (f : Nat) (acc : List (List Char))
    (t : List Char), t.length < f →
    (hasMatchFrom t = false → collectVarsF f acc t = acc) ∧
    acc.length ≤ (collectVarsF f acc t).length := by
  intro f
  induction f with
  | zero => intro acc t h; omega
  | succ f ih =>
    intro acc t hf
    cases t with
    | nil => exact ⟨fun _ => rfl, le_refl _⟩
    | cons c rest =>
      simp only [List.length_cons] at hf
      constructor
      · intro hm
        rw [hasMatchFrom_cons] at hm
        cases htm : tryMatch (c :: rest) with
        | some p => rw [htm] at hm; simp at hm
        | none =>
          rw [htm] at hm
          simp only [collectVarsF_succ_cons, htm]
          exact (ih acc rest (by omega)).1 hm
      · cases htm : tryMatch (c :: rest) with
        | some p =>
          obtain ⟨int, aft2⟩ := p
          have hlen := tryMatch_length htm
          simp only [List.length_cons] at hlen
          simp only [collectVarsF_succ_cons, htm]
          by_cases hc : acc.contains (rustTrim int)
          · rw [if_pos hc]
            exact (ih acc aft2 (by omega)).2
          · rw [if_neg hc]
            calc acc.length ≤ (acc ++ [rustTrim int]).length := by simp
              _ ≤ _ := (ih _ aft2 (by omega)).2
        | none =>
          simp only [collectVarsF_succ_cons, htm]
          exact (ih acc rest (by omega)).2

theorem collect_ne_nil_of_match : ∀ {f : Nat} {acc : List (List Char)}
    {t : List Char}, t.length < f → hasMatchFrom t = true →
    collectVarsF f acc t ≠ [] := by
  intro f
  induction f with
  | zero => intro acc t h; omega
  | succ f ih =>
    intro acc t hf hm
    cases t with
    | nil => simp [hasMatchFrom] at hm
    | cons c rest =>
      simp only [List.length_cons] at hf
      rw [hasMatchFrom_cons] at hm
      cases htm : tryMatch (c :: rest) with
      | some p =>
        obtain ⟨int, aft2⟩ := p
        have hlen := tryMatch_length htm
        simp only [List.length_cons] at hlen
        simp only [collectVarsF_succ_cons, htm]
        intro hnil
        have hmono := (collectVarsF_fuel_acc f
          (if acc.contains (rustTrim int) then acc else acc ++ [rustTrim int])
          aft2 (by omega)).2
        rw [hnil] at hmono
        simp only [List.length_nil, Nat.le_zero, List.length_eq_zero] at hmono
        by_cases hc : acc.contains (rustTrim int)
        · rw [if_pos hc] at hmono
          subst hmono
          simp at hc
        · rw [if_neg hc] at hmono
          simp at hmono
      | none =>
        rw [htm] at hm
        simp only [collectVarsF_succ_cons, htm]
        exact ih (by omega) hm

/-- Claim C10: `hasVariables` returns true exactly when `findVariables`
returns a nonempty list — the existence predicate and the enumeration
recognize the same texts. -/
theorem hasVariables_iff_findVariables :
    ∀ text : List Char, hasVariables text = true ↔ findVariables text ≠ [] := by
  intro text
  unfold hasVariables findVariables
  by_cases h0 : text = []
  · subst h0
    simp
  · rw [if_neg h0]
    by_cases hb : containsBrace text = false
    · rw [if_pos (Or.inr hb)]
      simp [notBrace_noMatch hb]
    · rw [if_neg (by simp [h0, hb])]
      constructor
      · intro hm
        exact collect_ne_nil_of_match (by omega) hm
      · intro hne
        by_contra hm
        simp only [Bool.not_eq_true] at hm
        exact hne ((collectVarsF_fuel_acc _ [] text (by omega)).1 hm)

/-! ## Decimal digit lemmas -/

theorem digitChar_isDigit {m : Nat} (h : m < 10) :
    (digitChar m).isDigit = true := by
  interval_cases m <;> decide

theorem digitChar_ne_zero {m : Nat} (h1 : 1 ≤ m) (h2 : m < 10) :
    digitChar m ≠ '0' := by
  interval_cases m <;> decide

theorem digitVal_digitChar {m : Nat} (h : m < 10) :
    digitVal (digitChar m) = m := by
  interval_cases m <;> decide

theorem natToDigitsF_spec : ∀ (f n : Nat), n < f →
    ∃ c t, natToDigitsF f n = c :: t ∧ c.isDigit = true ∧
      (1 ≤ n → c ≠ '0') ∧ ∀ x ∈ c :: t, x.isDigit = true := by
  intro f
  induction f with
  | zero => intro n h; omega
  | succ f ih =>
    intro n hf
    by_cases h10 : n < 10
    · refine ⟨digitChar n, [], ?_, digitChar_isDigit h10,
        fun h1 => digitChar_ne_zero h1 h10, ?_⟩
      · unfold natToDigitsF
        rw [if_pos h10]
      · intro x hx
        simp only [List.mem_singleton] at hx
        rw [hx]
        exact digitChar_isDigit h10
    · have hdiv : n / 10 < f := by
        have h1 : n / 10 < n := Nat.div_lt_self (by omega) (by omega)
        omega
      obtain ⟨c, t, heq, hdig, hnz, hall⟩ := ih (n / 10) hdiv
      refine ⟨c, t ++ [digitChar (n % 10)], ?_, hdig, fun _ => ?_, ?_⟩
      · unfold natToDigitsF
        rw [if_neg h10, heq]
        simp
      · exact hnz (by omega)
      · intro x hx
        rcases List.mem_cons.mp hx with hx | hx
        · rw [hx]
          exact hdig
        · rcases List.mem_append.mp hx with hx | hx
          · exact hall x (by simp [hx])
          · simp only [List.mem_singleton] at hx
            rw [hx]
            exact digitChar_isDigit (Nat.mod_lt _ (by omega))

theorem natToDigits_head (n : Nat) :
    ∃ c t, natToDigits n = c :: t ∧ c.isDigit = true := by
  obtain ⟨c, t, heq, hdig, -, -⟩ := natToDigitsF_spec (n + 1) n (by omega)
  exact ⟨c, t, heq, hdig⟩

/-- Every serialized JSON value starts with one of the characters
`n t f " [ -` `{` or a digit — in particular never with `u`. -/
theorem serJ_head (v : JValue) :
    ∃ c t, serJ v = c :: t ∧
      (c.isDigit = true ∨ c ∈ ['n', 't', 'f', '"', '[', '{', '-']) := by
  cases v with
  | null => exact ⟨'n', _, rfl, Or.inr (by decide)⟩
  | bool b =>
    cases b with
    | true => exact ⟨'t', _, rfl, Or.inr (by decide)⟩
    | false => exact ⟨'f', _, rfl, Or.inr (by decide)⟩
  | num n =>
    show ∃ c t, intToString n = c :: t ∧ _
    unfold intToString
    by_cases hn : n < 0
    · rw [if_pos hn]
      exact ⟨'-', _, rfl, Or.inr (by decide)⟩
    · rw [if_neg hn]
      obtain ⟨c, t, heq, hdig⟩ := natToDigits_head n.toNat
      exact ⟨c, t, heq, Or.inl hdig⟩
  | str s => exact ⟨'"', _, rfl, Or.inr (by decide)⟩
  | arr es => exact ⟨'[', _, rfl, Or.inr (by decide)⟩
  | obj fs => exact ⟨'{', _, rfl, Or.inr (by decide)⟩

theorem serJ_ne_undefined (v : JValue) : serJ v ≠ "undefined".toList := by
  obtain ⟨c, t, heq, hc⟩ := serJ_head v
  rw [heq]
  intro hcon
  injection hcon with h1 _
  subst h1
  rcases hc with hc | hc
  · simp at hc
  · simp at hc

/-! ## Claim C3 -/

/-- Claim C3: `jsonExtract` returns the text "null" exactly when the path
resolves to a present JSON null; it returns the sentinel "undefined" when
the path fails to resolve and when the document is unparsable; and on any
resolvable path the output is never the sentinel (the two cases cannot be
conflated). -/
theorem jsonExtract_null_vs_undefined :
    ∀ (doc path : List Char),
      (parseDoc doc = none → jsonExtract doc path = "undefined".toList) ∧
      (∀ v, parseDoc doc = some v → getJsonPath v path = none →
        jsonExtract doc path = "undefined".toList) ∧
      (∀ v, parseDoc doc = some v → getJsonPath v path = some .null →
        jsonExtract doc path = "null".toList) ∧
      (∀ v w, parseDoc doc = some v → getJsonPath v path = some w →
        jsonExtract doc path ≠ "undefined".toList) := by
  intro doc path
  refine ⟨?_, ?_, ?_, ?_⟩
  · intro h
    simp only [jsonExtract, h]
  · intro v h1 h2
    simp only [jsonExtract, h1, h2]
  · intro v h1 h2
    simp only [jsonExtract, h1, h2]
    rfl
  · intro v w h1 h2
    simp only [jsonExtract, h1, h2]
    exact serJ_ne_undefined w

theorem jsonExtract_null_vs_undefined_witness :
    jsonExtract ('{' :: ("\"a\":null".toList ++ ['}'])) "a".toList
      = "null".toList :=
  (jsonExtract_null_vs_undefined ('{' :: ("\"a\":null".toList ++ ['}']))
      "a".toList).2.2.1
    (.obj (.cons ['a'] .null .nil)) (by rfl) (by rfl)

/-! ## Segment decomposition lemmas (claim C4) -/

theorem takeWhile_all_append {p : Char → Bool} {l : List Char} {y : Char}
    {t : List Char} (hall : ∀ x ∈ l, p x = true) (hy : p y = false) :
    (l ++ y :: t).takeWhile p = l ∧ (l ++ y :: t).dropWhile p = y :: t := by
  induction l with
  | nil =>
    simp only [List.nil_append]
    exact ⟨by rw [List.takeWhile_cons, hy]; simp,
           by rw [List.dropWhile_cons, hy]; simp⟩
  | cons c cl ih =>
    have hc := hall c (by simp)
    obtain ⟨h1, h2⟩ := ih (fun x hx => hall x (by simp [hx]))
    rw [List.cons_append]
    exact ⟨by rw [List.takeWhile_cons, if_pos hc, h1],
           by rw [List.dropWhile_cons, if_pos hc, h2]⟩

theorem bracketForm_cons (rest : List Char) :
    bracketForm ('[' :: rest) =
      if rest.takeWhile Char.isDigit ≠ [] ∧ rest.dropWhile Char.isDigit = [']']
      then some (digitsVal (rest.takeWhile Char.isDigit)) else none := rfl

theorem bracketForm_iff {cs : List Char} {i : Nat} :
    bracketForm cs = some i ↔
      ∃ ds, cs = '[' :: ds ++ [']'] ∧ ds ≠ [] ∧
        (∀ c ∈ ds, c.isDigit = true) ∧ i = digitsVal ds := by
  constructor
  · intro h
    unfold bracketForm at h
    split at h
    · next rest =>
      split at h
      · next hcond =>
        obtain ⟨h1, h2⟩ := hcond
        injection h with h
        refine ⟨rest.takeWhile Char.isDigit, ?_, h1, ?_, h.symm⟩
        · have hh := List.takeWhile_append_dropWhile (p := Char.isDigit) (l := rest)
          rw [h2] at hh
          conv_lhs => rw [← hh]
          simp
        · intro c hc
          exact List.mem_takeWhile_imp hc
      · exact absurd h (by simp)
    · exact absurd h (by simp)
  · rintro ⟨ds, rfl, hne, hdig, rfl⟩
    obtain ⟨ht, hd⟩ := takeWhile_all_append (p := Char.isDigit) (y := ']')
      (l := ds) (t := []) hdig (by decide)
    show bracketForm ('[' :: (ds ++ [']'])) = some (digitsVal ds)
    rw [bracketForm_cons (ds ++ [']']), ht, hd, if_pos ⟨hne, rfl⟩]

theorem bracketSplit_unique : ∀ {k1 ds1 k2 ds2 : List Char},
    (∀ c ∈ ds1, c.isDigit = true) → (∀ c ∈ ds2, c.isDigit = true) →
    k1 ++ '[' :: ds1 ++ [']'] = k2 ++ '[' :: ds2 ++ [']'] →
    k1 = k2 ∧ ds1 = ds2 := by
  intro k1
  induction k1 with
  | nil =>
    intro ds1 k2 ds2 h1 h2 heq
    cases k2 with
    | nil =>
      simp only [List.nil_append] at heq
      injection heq with _ heq
      exact ⟨rfl, (List.append_inj' heq rfl).1⟩
    | cons c2 k2' =>
      simp only [List.nil_append, List.cons_append] at heq
      injection heq with hc heq
      exfalso
      have hmem : '[' ∈ k2' ++ '[' :: ds2 ++ [']'] := by simp
      rw [← heq] at hmem
      rcases List.mem_append.mp hmem with hm | hm
      · exact absurd (h1 _ hm) (by decide)
      · simp at hm
  | cons c k1' ih =>
    intro ds1 k2 ds2 h1 h2 heq
    cases k2 with
    | nil =>
      simp only [List.nil_append, List.cons_append] at heq
      injection heq with hc heq
      exfalso
      have hmem : '[' ∈ k1' ++ '[' :: ds1 ++ [']'] := by simp
      rw [heq] at hmem
      rcases List.mem_append.mp hmem with hm | hm
      · exact absurd (h2 _ hm) (by decide)
      · simp at hm
    | cons c2 k2' =>
      simp only [List.cons_append] at heq
      injection heq with hc heq
      obtain ⟨hk, hd⟩ := ih h1 h2 heq
      exact ⟨by rw [hc, hk], hd⟩

theorem reMatch_iff : ∀ {part k : List Char} {i : Nat},
    reMatch part = some (k, i) ↔
      ∃ ds, part = k ++ '[' :: ds ++ [']'] ∧ k ≠ [] ∧
        (∀ c ∈ k, c ≠ '\n') ∧ ds ≠ [] ∧
        (∀ c ∈ ds, c.isDigit = true) ∧ i = digitsVal ds := by
  intro part
  induction part with
  | nil =>
    intro k i
    constructor
    · intro h
      simp [reMatch] at h
    · rintro ⟨ds, heq, hkne, -, -, -, -⟩
      exfalso
      cases k with
      | nil => exact hkne rfl
      | cons c k' => simp at heq
  | cons c rest ih =>
    intro k i
    constructor
    · intro h
      unfold reMatch at h
      by_cases hnl : c = '\n'
      · rw [if_pos hnl] at h
        exact absurd h (by simp)
      · rw [if_neg hnl] at h
        cases hrm : reMatch rest with
        | some p =>
          obtain ⟨k', i'⟩ := p
          rw [hrm] at h
          injection h with h
          injection h with hk hi
          obtain ⟨ds, hdecomp, hk'ne, hknl, hdne, hdig, hival⟩ := ih.mp hrm
          refine ⟨ds, ?_, by rw [← hk]; simp, ?_, hdne, hdig,
            by rw [← hi]; exact hival⟩
          · rw [← hk]
            simp [hdecomp]
          · intro x hx
            rw [← hk] at hx
            rcases List.mem_cons.mp hx with hx | hx
            · rw [hx]; exact hnl
            · exact hknl x hx
        | none =>
          rw [hrm] at h
          cases hbf : bracketForm rest with
          | some i' =>
            rw [hbf] at h
            injection h with h
            injection h with hk hi
            obtain ⟨ds, hdecomp, hdne, hdig, hival⟩ := bracketForm_iff.mp hbf
            refine ⟨ds, ?_, by rw [← hk]; simp, ?_, hdne, hdig,
              by rw [← hi]; exact hival⟩
            · rw [← hk, hdecomp]
              rfl
            · intro x hx
              rw [← hk] at hx
              simp only [List.mem_singleton] at hx
              rw [hx]
              exact hnl
          | none =>
            rw [hbf] at h
            exact absurd h (by simp)
    · rintro ⟨ds, hdecomp, hkne, hknl, hdne, hdig, hival⟩
      cases k with
      | nil => exact absurd rfl hkne
      | cons ck k2 =>
        simp only [List.cons_append] at hdecomp
        injection hdecomp with hc hrest
        have hcnl : c ≠ '\n' := by
          rw [hc]
          exact hknl ck (by simp)
        unfold reMatch
        rw [if_neg hcnl]
        cases k2 with
        | nil =>
          simp only [List.nil_append] at hrest
          have hbf : bracketForm rest = some (digitsVal ds) :=
            bracketForm_iff.mpr ⟨ds, hrest, hdne, hdig, rfl⟩
          have hrm : reMatch rest = none := by
            cases hrm2 : reMatch rest with
            | none => rfl
            | some p =>
              obtain ⟨k3, i3⟩ := p
              obtain ⟨ds2, hdec2, hk3ne, -, -, hdig2, -⟩ := ih.mp hrm2
              rw [hrest] at hdec2
              have huniq := @bracketSplit_unique [] _ k3 _
                hdig hdig2 (by simpa using hdec2)
              exact absurd huniq.1.symm hk3ne
          rw [hrm, hbf, hc, hival]
        | cons c2 k3 =>
          have hrm : reMatch rest = some (c2 :: k3, digitsVal ds) :=
            ih.mpr ⟨ds, hrest, by simp, fun x hx => hknl x (by simp [hx]),
              hdne, hdig, rfl⟩
          rw [hrm, hc, hival]

theorem specDecompose_iff {part k : List Char} {i : Nat} :
    specDecompose part = some (k, i) ↔
      ∃ ds, part = k ++ '[' :: ds ++ [']'] ∧ k ≠ [] ∧
        (∀ c ∈ k, c ≠ '\n') ∧ ds ≠ [] ∧
        (∀ c ∈ ds, c.isDigit = true) ∧ i = digitsVal ds := by
  constructor
  · intro h
    unfold specDecompose at h
    split at h
    · next rrest hrev =>
      split at h
      · next rkey hdrop =>
        split at h
        · next hcond =>
          obtain ⟨hne1, hne2, hnl⟩ := hcond
          injection h with h
          injection h with hk hi
          have hsplit : rrest.takeWhile Char.isDigit ++ '[' :: rkey = rrest := by
            conv_rhs => rw [← List.takeWhile_append_dropWhile
              (p := Char.isDigit) (l := rrest)]
            rw [hdrop]
          have hpart : part = rrest.reverse ++ [']'] := by
            have hh := congrArg List.reverse hrev
            simpa using hh
          refine ⟨(rrest.takeWhile Char.isDigit).reverse, ?_, ?_, ?_, ?_, ?_, ?_⟩
          · rw [hpart, ← hk]
            conv_lhs => rw [← hsplit]
            simp
          · rw [← hk]
            simpa using hne2
          · intro x hx
            rw [← hk] at hx
            simp only [List.mem_reverse] at hx
            simp only [List.all_eq_true] at hnl
            simpa using hnl x hx
          · simpa using hne1
          · intro x hx
            simp only [List.mem_reverse] at hx
            exact List.mem_takeWhile_imp hx
          · rw [← hi]
        · exact absurd h (by simp)
      · exact absurd h (by simp)
    · exact absurd h (by simp)
  · rintro ⟨ds, rfl, hkne, hknl, hdne, hdig, rfl⟩
    have hrev : (k ++ '[' :: ds ++ [']']).reverse =
        ']' :: (ds.reverse ++ '[' :: k.reverse) := by
      simp
    obtain ⟨ht, hd⟩ := takeWhile_all_append (p := Char.isDigit) (y := '[')
      (l := ds.reverse) (t := k.reverse)
      (fun x hx => hdig x (by simpa using hx)) (by decide)
    unfold specDecompose
    rw [hrev]
    simp only [ht, hd]
    rw [if_pos ⟨by simpa using hdne, by simpa using hkne,
      by simp only [List.all_eq_true]
         intro x hx
         simpa using hknl x (by simpa using hx)⟩]
    simp

theorem reMatch_eq_specDecompose (part : List Char) :
    reMatch part = specDecompose part := by
  cases h1 : reMatch part with
  | some p =>
    obtain ⟨k, i⟩ := p
    obtain ⟨ds, hd⟩ := reMatch_iff.mp h1
    exact (specDecompose_iff.mpr ⟨ds, hd⟩).symm
  | none =>
    cases h2 : specDecompose part with
    | some p =>
      obtain ⟨k, i⟩ := p
      obtain ⟨ds, hd⟩ := specDecompose_iff.mp h2
      rw [reMatch_iff.mpr ⟨ds, hd⟩] at h1
      exact absurd h1 (by simp)
    | none => rfl

theorem pathStep_eq_spec (cur : JValue) (part : List Char) :
    pathStep cur part = pathStepSpec cur part := by
  unfold pathStep pathStepSpec
  rw [← reMatch_eq_specDecompose]
  cases reMatch part with
  | some p =>
    obtain ⟨k, i⟩ := p
    cases cur with
    | obj fs =>
      simp only [jvGet]
      cases lookupField k fs with
      | some v2 => cases v2 <;> rfl
      | none => rfl
    | null => rfl
    | bool b => rfl
    | num n => rfl
    | str s => rfl
    | arr es => rfl
  | none =>
    cases cur <;> rfl

theorem foldl_step_none : ∀ segs : List (List Char),
    segs.foldl (fun acc seg => acc.bind fun cur => pathStepSpec cur seg)
      (none : Option JValue) = none := by
  intro segs
  induction segs with
  | nil => rfl
  | cons p ps ih => simpa using ih

theorem goPath_eq_foldl : ∀ (segs : List (List Char)) (v : JValue),
    goPath v segs =
      segs.foldl (fun acc seg => acc.bind fun cur => pathStepSpec cur seg)
        (some v) := by
  intro segs
  induction segs with
  | nil => intro v; rfl
  | cons p ps ih =>
    intro v
    rw [List.foldl_cons]
    show (match pathStep v p with
          | some v2 => goPath v2 ps
          | none => none) = _
    rw [pathStep_eq_spec]
    cases hps : pathStepSpec v p with
    | some v2 =>
      show goPath v2 ps = _
      rw [show ((some v).bind fun cur => pathStepSpec cur p) = some v2 by
        simp [hps]]
      exact ih v2
    | none =>
      show (none : Option JValue) = _
      rw [show ((some v).bind fun cur => pathStepSpec cur p) = none by
        simp [hps]]
      exact (foldl_step_none ps).symm

/-! ## Claim C4 -/

/-- Claim C4: `get_json_path` coincides with the specification's
resolver: an empty path yields the document itself; otherwise the path is
split on dots and processed left to right, where a segment matching
`key[index]` (the key nonempty and newline-free, the index a nonempty
digit run in one trailing bracket group) first resolves `key` as an
object field and then indexes the result as an array, and any other
segment is wholly an object field name; any failure yields "not found"
with no partial result. -/
theorem getJsonPath_eq_spec :
    ∀ (v : JValue) (path : List Char),
      getJsonPath v path = getJsonPathSpec v path := by
  intro v path
  unfold getJsonPath getJsonPathSpec
  by_cases h : path = []
  · rw [if_pos h, if_pos h]
  · rw [if_neg h, if_neg h]
    exact goPath_eq_foldl _ v

/-! ## Number serialization round trip (claim C7) -/

theorem takeWhile_append_of_all {p : Char → Bool} {l r : List Char}
    (hall : ∀ x ∈ l, p x = true) :
    (l ++ r).takeWhile p = l ++ r.takeWhile p ∧
    (l ++ r).dropWhile p = r.dropWhile p := by
  induction l with
  | nil => simp
  | cons c t ih =>
    have hc := hall c (by simp)
    obtain ⟨h1, h2⟩ := ih (fun x hx => hall x (by simp [hx]))
    rw [List.cons_append]
    exact ⟨by rw [List.takeWhile_cons, if_pos hc, h1, List.cons_append],
           by rw [List.dropWhile_cons, if_pos hc, h2]⟩

theorem digitsVal_append (ds : List Char) (c : Char) :
    digitsVal (ds ++ [c]) = digitsVal ds * 10 + digitVal c := by
  unfold digitsVal
  rw [List.foldl_append]
  rfl

theorem natToDigitsF_val : ∀ f n, n < f →
    digitsVal (natToDigitsF f n) = n := by
  intro f
  induction f with
  | zero => intro n h; omega
  | succ f ih =>
    intro n hf
    unfold natToDigitsF
    by_cases h10 : n < 10
    · rw [if_pos h10]
      show digitsVal [digitChar n] = n
      unfold digitsVal
      simp only [List.foldl_cons, List.foldl_nil]
      rw [digitVal_digitChar h10]
      omega
    · rw [if_neg h10]
      have hdiv : n / 10 < f := by
        have hh := Nat.div_lt_self (n := n) (by omega) (by omega : 1 < 10)
        omega
      rw [digitsVal_append, ih _ hdiv, digitVal_digitChar (Nat.mod_lt _ (by omega))]
      omega

theorem restOk_head_not_digit {rest : List Char} (h : restOk rest) :
    rest.takeWhile Char.isDigit = [] ∧ rest.dropWhile Char.isDigit = rest := by
  rcases h with rfl | ⟨c, t, rfl, hc⟩
  · exact ⟨rfl, rfl⟩
  · rcases hc with rfl | rfl | rfl <;>
      exact ⟨by rw [List.takeWhile_cons, if_neg (by decide)],
             by rw [List.dropWhile_cons, if_neg (by decide)]⟩

theorem parseNumMag_zero (r : List Char) :
    parseNumMag ('0' :: r) =
      match r with
      | c :: _ => if c.isDigit then none else some (0, r)
      | [] => some (0, []) := rfl

theorem parseNumMag_cons_ne {c : Char} {r : List Char} (h : c ≠ '0') :
    parseNumMag (c :: r) =
      if c.isDigit then
        some (digitsVal ((c :: r).takeWhile Char.isDigit),
              (c :: r).dropWhile Char.isDigit)
      else none := by
  unfold parseNumMag
  split
  · next r' heq =>
    injection heq with h1 _
    exact absurd h1 h
  · next c' r' heq =>
    injection heq with h1 h2
    rw [h1, h2]
  · next heq => exact absurd heq (by simp)

theorem parseNumMag_natToDigits (n : Nat) {rest : List Char} (h : restOk rest) :
    parseNumMag (natToDigits n ++ rest) = some (n, rest) := by
  obtain ⟨htw, hdw⟩ := restOk_head_not_digit h
  by_cases h0 : n = 0
  · subst h0
    show parseNumMag ('0' :: rest) = some (0, rest)
    rw [parseNumMag_zero]
    rcases h with rfl | ⟨c, t, rfl, hc⟩
    · rfl
    · rcases hc with rfl | rfl | rfl <;> rfl
  · obtain ⟨c, t, heq, hdig, hnz, hall⟩ := natToDigitsF_spec (n + 1) n (by omega)
    have hne0 : c ≠ '0' := hnz (by omega)
    show parseNumMag (natToDigitsF (n + 1) n ++ rest) = some (n, rest)
    rw [heq]
    show parseNumMag (c :: (t ++ rest)) = some (n, rest)
    rw [parseNumMag_cons_ne hne0, if_pos hdig]
    have htt : (c :: (t ++ rest)).takeWhile Char.isDigit = c :: t := by
      rw [List.takeWhile_cons, if_pos hdig,
        (takeWhile_append_of_all (fun x hx => hall x (by simp [hx]))).1, htw,
        List.append_nil]
    have hdd : (c :: (t ++ rest)).dropWhile Char.isDigit = rest := by
      rw [List.dropWhile_cons, if_pos hdig,
        (takeWhile_append_of_all (fun x hx => hall x (by simp [hx]))).2, hdw]
    rw [htt, hdd]
    have hv := natToDigitsF_val (n + 1) n (by omega)
    rw [heq] at hv
    rw [hv]

/-! ## Character class helpers for parser dispatch -/

theorem isDigit_not_ws {c : Char} (h : c.isDigit = true) : isJsonWsC c = false := by
  unfold isJsonWsC
  by_cases h1 : c = ' '
  · rw [h1] at h; exact absurd h (by decide)
  by_cases h2 : c = '\t'
  · rw [h2] at h; exact absurd h (by decide)
  by_cases h3 : c = '\n'
  · rw [h3] at h; exact absurd h (by decide)
  by_cases h4 : c = '\r'
  · rw [h4] at h; exact absurd h (by decide)
  simp [h1, h2, h3, h4]

theorem skipWs_cons {c : Char} {X : List Char} (h : isJsonWsC c = false) :
    skipWs (c :: X) = c :: X := by
  unfold skipWs
  rw [List.dropWhile_cons, h]
  simp

/-! ## String serialization round trip (claim C7) -/

theorem hexVal_hexDigitChar {m : Nat} (h : m < 16) :
    hexVal? (hexDigitChar m) = some m := by
  interval_cases m <;> decide

theorem hex4_eq {a b c d : Char} {x y z w : Nat} (ha : hexVal? a = some x)
    (hb : hexVal? b = some y) (hc : hexVal? c = some z)
    (hd : hexVal? d = some w) :
    hex4 a b c d = some (((x * 16 + y) * 16 + z) * 16 + w) := by
  simp only [hex4, ha, hb, hc, hd]

theorem parseUEsc_control {m : Nat} (hm : m < 32) (r : List Char) :
    parseUEsc ('0' :: '0' :: hexDigitChar (m / 16) :: hexDigitChar (m % 16) :: r) =
      some (Char.ofNat m, r) := by
  have hh : hex4 '0' '0' (hexDigitChar (m / 16)) (hexDigitChar (m % 16)) =
      some m := by
    rw [hex4_eq (show hexVal? '0' = some 0 from by decide)
      (show hexVal? '0' = some 0 from by decide)
      (hexVal_hexDigitChar (by omega))
      (hexVal_hexDigitChar (Nat.mod_lt _ (by omega)))]
    congr 1
    omega
  simp only [parseUEsc, hh]
  rw [if_pos (Or.inl (by omega))]

theorem strCons_some (c : Char) (s r : List Char) :
    strCons c (some (s, r)) = some (c :: s, r) := rfl

theorem parseStrBodyF_u (f : Nat) (r : List Char) :
    parseStrBodyF (f + 1) ('\\' :: 'u' :: r) =
      match parseUEsc r with
      | some (c, r2) => strCons c (parseStrBodyF f r2)
      | none => none := rfl

theorem escapeChar_uesc {c : Char} (h1 : c ≠ '"') (h2 : c ≠ '\\')
    (h3 : c ≠ Char.ofNat 8) (h4 : c ≠ Char.ofNat 9) (h5 : c ≠ Char.ofNat 10)
    (h6 : c ≠ Char.ofNat 12) (h7 : c ≠ Char.ofNat 13) (h8 : c.toNat < 32) :
    escapeChar c =
      ['\\', 'u', '0', '0', hexDigitChar (c.toNat / 16),
       hexDigitChar (c.toNat % 16)] := by
  unfold escapeChar
  rw [if_neg h1, if_neg h2, if_neg h3, if_neg h4, if_neg h5, if_neg h6,
      if_neg h7, if_pos h8]

theorem escapeChar_raw {c : Char} (h1 : c ≠ '"') (h2 : c ≠ '\\')
    (h3 : c ≠ Char.ofNat 8) (h4 : c ≠ Char.ofNat 9) (h5 : c ≠ Char.ofNat 10)
    (h6 : c ≠ Char.ofNat 12) (h7 : c ≠ Char.ofNat 13) (h8 : ¬c.toNat < 32) :
    escapeChar c = [c] := by
  unfold escapeChar
  rw [if_neg h1, if_neg h2, if_neg h3, if_neg h4, if_neg h5, if_neg h6,
      if_neg h7, if_neg h8]

theorem parseStrBodyF_raw {f : Nat} {c : Char} {X : List Char} (h1 : c ≠ '"')
    (h2 : c ≠ '\\') (h3 : ¬c.toNat < 32) :
    parseStrBodyF (f + 1) (c :: X) = strCons c (parseStrBodyF f X) := by
  conv_lhs => unfold parseStrBodyF
  rw [if_neg h1, if_neg h2, if_neg h3]

theorem escapeChar_length_pos (c : Char) : 1 ≤ (escapeChar c).length := by
  unfold escapeChar
  split_ifs <;> simp

theorem parseStrBodyF_ser : ∀ (f : Nat) (s rest : List Char),
    ((s.map escapeChar).flatten).length < f →
    parseStrBodyF f ((s.map escapeChar).flatten ++ '"' :: rest) =
      some (s, rest) := by
  intro f
  induction f with
  | zero => intro s rest h; omega
  | succ f ih =>
    intro s rest hf
    cases s with
    | nil =>
      show parseStrBodyF (f + 1) ('"' :: rest) = some ([], rest)
      rfl
    | cons c s' =>
      have hlen : ((s'.map escapeChar).flatten).length < f := by
        have h1 := escapeChar_length_pos c
        simp only [List.map_cons, List.flatten_cons, List.length_append] at hf
        omega
      have hgoal : (((c :: s').map escapeChar).flatten ++ '"' :: rest) =
          escapeChar c ++ ((s'.map escapeChar).flatten ++ '"' :: rest) := by
        simp
      rw [hgoal]
      by_cases h1 : c = '"'
      · subst h1
        show parseStrBodyF (f + 1)
          ('\\' :: '"' :: ((s'.map escapeChar).flatten ++ '"' :: rest)) = _
        show strCons '"'
          (parseStrBodyF f ((s'.map escapeChar).flatten ++ '"' :: rest)) = _
        rw [ih s' rest hlen]
        rfl
      by_cases h2 : c = '\\'
      · subst h2
        show strCons '\\'
          (parseStrBodyF f ((s'.map escapeChar).flatten ++ '"' :: rest)) = _
        rw [ih s' rest hlen]
        rfl
      by_cases h3 : c = Char.ofNat 8
      · subst h3
        show strCons (Char.ofNat 8)
          (parseStrBodyF f ((s'.map escapeChar).flatten ++ '"' :: rest)) = _
        rw [ih s' rest hlen]
        rfl
      by_cases h4 : c = Char.ofNat 9
      · subst h4
        show strCons (Char.ofNat 9)
          (parseStrBodyF f ((s'.map escapeChar).flatten ++ '"' :: rest)) = _
        rw [ih s' rest hlen]
        rfl
      by_cases h5 : c = Char.ofNat 10
      · subst h5
        show strCons (Char.ofNat 10)
          (parseStrBodyF f ((s'.map escapeChar).flatten ++ '"' :: rest)) = _
        rw [ih s' rest hlen]
        rfl
      by_cases h6 : c = Char.ofNat 12
      · subst h6
        show strCons (Char.ofNat 12)
          (parseStrBodyF f ((s'.map escapeChar).flatten ++ '"' :: rest)) = _
        rw [ih s' rest hlen]
        rfl
      by_cases h7 : c = Char.ofNat 13
      · subst h7
        show strCons (Char.ofNat 13)
          (parseStrBodyF f ((s'.map escapeChar).flatten ++ '"' :: rest)) = _
        rw [ih s' rest hlen]
        rfl
      by_cases h8 : c.toNat < 32
      · rw [escapeChar_uesc h1 h2 h3 h4 h5 h6 h7 h8]
        show parseStrBodyF (f + 1)
          ('\\' :: 'u' :: ('0' :: '0' :: hexDigitChar (c.toNat / 16) ::
            hexDigitChar (c.toNat % 16) ::
            ((s'.map escapeChar).flatten ++ '"' :: rest))) = _
        rw [parseStrBodyF_u, parseUEsc_control h8]
        rw [Char.ofNat_toNat]
        show strCons c
          (parseStrBodyF f ((List.map escapeChar s').flatten ++ '"' :: rest)) =
          some (c :: s', rest)
        rw [ih s' rest hlen]
        rfl
      · rw [escapeChar_raw h1 h2 h3 h4 h5 h6 h7 h8]
        show parseStrBodyF (f + 1)
          (c :: ((s'.map escapeChar).flatten ++ '"' :: rest)) = _
        rw [parseStrBodyF_raw h1 h2 h8, ih s' rest hlen]
        rfl

theorem parseStrBody_ser (s tail : List Char) :
    parseStrBody ((s.map escapeChar).flatten ++ '"' :: tail) = some (s, tail) := by
  unfold parseStrBody
  exact parseStrBodyF_ser _ s tail (by simp [List.length_append]; omega)

/-! ## Object field map lemmas (claim C7) -/

theorem lookupField_none_iff {k : List Char} : ∀ (fs : JObj),
    lookupField k fs = none ↔ (keysO fs).contains k = false
  | .nil => by simp [lookupField, keysO]
  | .cons k' v t => by
    have ih := lookupField_none_iff (k := k) t
    by_cases h : k' = k
    · subst h
      simp [lookupField, keysO]
    · simp only [lookupField, if_neg h, keysO, List.contains_cons]
      rw [ih]
      constructor
      · intro hh
        simp only [Bool.or_eq_false_iff]
        refine ⟨?_, hh⟩
        simp [Ne.symm h]
      · intro hh
        exact (Bool.or_eq_false_iff.mp hh).2

theorem lookupField_some_wf {k : List Char} : ∀ (fs : JObj) (v' : JValue),
    lookupField k fs = some v' → wfO fs = true → wfJ v' = true
  | .nil, v', h, _ => by simp [lookupField] at h
  | .cons k' v t, v', h, hw => by
    simp only [wfO, Bool.and_eq_true] at hw
    unfold lookupField at h
    by_cases hk : k' = k
    · rw [if_pos hk] at h
      injection h with h
      rw [← h]
      exact hw.1
    · rw [if_neg hk] at h
      exact lookupField_some_wf t v' h hw.2

theorem wfO_eraseField {k : List Char} : ∀ (fs : JObj),
    wfO fs = true → wfO (eraseField k fs) = true
  | .nil => by intro h; exact h
  | .cons k' v t => by
    intro h
    simp only [wfO, Bool.and_eq_true] at h
    unfold eraseField
    by_cases hk : k' = k
    · rw [if_pos hk]
      exact h.2
    · rw [if_neg hk]
      simp only [wfO, Bool.and_eq_true]
      exact ⟨h.1, wfO_eraseField t h.2⟩

theorem keysO_eraseField_contains {k x : List Char} : ∀ (fs : JObj),
    (keysO (eraseField k fs)).contains x = true →
    (keysO fs).contains x = true
  | .nil => by intro h; exact h
  | .cons k' v t => by
    intro h
    unfold eraseField at h
    by_cases hk : k' = k
    · rw [if_pos hk] at h
      simp only [keysO, List.contains_cons]
      rw [h]
      simp
    · rw [if_neg hk] at h
      simp only [keysO, List.contains_cons] at h ⊢
      rcases Bool.or_eq_true_iff.mp h with h | h
      · rw [h]
        simp
      · rw [keysO_eraseField_contains t h]
        simp

theorem nodupKeysO_eraseField {k : List Char} : ∀ (fs : JObj),
    nodupKeysO fs = true → nodupKeysO (eraseField k fs) = true
  | .nil => by intro h; exact h
  | .cons k' v t => by
    intro h
    simp only [nodupKeysO, Bool.and_eq_true] at h
    unfold eraseField
    by_cases hk : k' = k
    · rw [if_pos hk]
      exact h.2
    · rw [if_neg hk]
      simp only [nodupKeysO, Bool.and_eq_true]
      refine ⟨?_, nodupKeysO_eraseField t h.2⟩
      by_cases hc : (keysO (eraseField k t)).contains k' = true
      · have := keysO_eraseField_contains t hc
        rw [this] at h
        simp at h
      · simp only [Bool.not_eq_true] at hc
        simpa using hc

theorem contains_eraseField_self {k : List Char} : ∀ (fs : JObj),
    nodupKeysO fs = true → (keysO (eraseField k fs)).contains k = false
  | .nil => by intro _; rfl
  | .cons k' v t => by
    intro h
    simp only [nodupKeysO, Bool.and_eq_true] at h
    unfold eraseField
    by_cases hk : k' = k
    · rw [if_pos hk]
      rw [← hk]
      simpa using h.1
    · rw [if_neg hk]
      simp only [keysO, List.contains_cons, Bool.or_eq_false_iff]
      exact ⟨by simp [Ne.symm hk], contains_eraseField_self t h.2⟩

theorem insertFieldFront_wf {k : List Char} {v : JValue} {fs : JObj}
    (hv : wfJ v = true) (h : (nodupKeysO fs && wfO fs) = true) :
    (nodupKeysO (insertFieldFront k v fs) &&
      wfO (insertFieldFront k v fs)) = true := by
  simp only [Bool.and_eq_true] at h
  obtain ⟨hnd, hwf⟩ := h
  unfold insertFieldFront
  cases hlf : lookupField k fs with
  | none =>
    have hc := (lookupField_none_iff fs).mp hlf
    simp only [nodupKeysO, wfO, keysO, Bool.and_eq_true]
    exact ⟨⟨by simpa using hc, hnd⟩, hv, hwf⟩
  | some v' =>
    simp only [nodupKeysO, wfO, keysO, Bool.and_eq_true]
    exact ⟨⟨by simpa using contains_eraseField_self fs hnd,
        nodupKeysO_eraseField fs hnd⟩,
      lookupField_some_wf fs v' hlf hwf, wfO_eraseField fs hwf⟩

/-! ## Well-formedness of parser output (claim C7) -/

theorem parse_wf : ∀ f : Nat,
    (∀ cs w r, parseValue f cs = some (w, r) → wfJ w = true) ∧
    (∀ cs es r, parseElems f cs = some (es, r) → wfA es = true) ∧
    (∀ cs fs r, parseFields f cs = some (fs, r) →
      (nodupKeysO fs && wfO fs) = true) := by
  intro f
  induction f with
  | zero =>
    refine ⟨?_, ?_, ?_⟩ <;> intro cs x r h <;>
      simp [parseValue, parseElems, parseFields] at h
  | succ f ih =>
    obtain ⟨ih1, ih2, ih3⟩ := ih
    refine ⟨?_, ?_, ?_⟩
    · intro cs w r h
      unfold parseValue at h
      split at h
      · injection h with h
        injection h with h1 h2
        rw [← h1]
        rfl
      · injection h with h
        injection h with h1 h2
        rw [← h1]
        rfl
      · injection h with h
        injection h with h1 h2
        rw [← h1]
        rfl
      · split at h
        · next s r2 heq =>
          injection h with h
          injection h with h1 h2
          rw [← h1]
          rfl
        · exact absurd h (by simp)
      · split at h
        · injection h with h
          injection h with h1 h2
          rw [← h1]
          rfl
        · split at h
          · next es r3 heq =>
            injection h with h
            injection h with h1 h2
            rw [← h1]
            exact ih2 _ _ _ heq
          · exact absurd h (by simp)
      · split at h
        · injection h with h
          injection h with h1 h2
          rw [← h1]
          rfl
        · split at h
          · next fs r3 heq =>
            injection h with h
            injection h with h1 h2
            rw [← h1]
            show (nodupKeysO fs && wfO fs) = true
            exact ih3 _ _ _ heq
          · exact absurd h (by simp)
      · split at h
        · next m r2 heq =>
          injection h with h
          injection h with h1 h2
          rw [← h1]
          rfl
        · exact absurd h (by simp)
      · split at h
        · split at h
          · next m r2 heq =>
            injection h with h
            injection h with h1 h2
            rw [← h1]
            rfl
          · exact absurd h (by simp)
        · exact absurd h (by simp)
      · exact absurd h (by simp)
    · intro cs es r h
      unfold parseElems at h
      split at h
      · next v r1 heq =>
        split at h
        · split at h
          · next vs r3 heq2 =>
            injection h with h
            injection h with h1 h2
            rw [← h1]
            show (wfJ v && wfA vs) = true
            simp [ih1 _ _ _ heq, ih2 _ _ _ heq2]
          · exact absurd h (by simp)
        · injection h with h
          injection h with h1 h2
          rw [← h1]
          show (wfJ v && wfA .nil) = true
          simp only [Bool.and_eq_true]
          exact ⟨ih1 _ _ _ heq, rfl⟩
        · exact absurd h (by simp)
      · exact absurd h (by simp)
    · intro cs fs r h
      unfold parseFields at h
      split at h
      · split at h
        · next k r1 heq =>
          split at h
          · split at h
            · next v r3 heq2 =>
              split at h
              · split at h
                · next fs2 r5 heq3 =>
                  injection h with h
                  injection h with h1 h2
                  rw [← h1]
                  exact insertFieldFront_wf (ih1 _ _ _ heq2) (ih3 _ _ _ heq3)
                · exact absurd h (by simp)
              · injection h with h
                injection h with h1 h2
                rw [← h1]
                show (nodupKeysO (.cons k v .nil) && wfO (.cons k v .nil)) = true
                simp [nodupKeysO, wfO, keysO, ih1 _ _ _ heq2]
              · exact absurd h (by simp)
            · exact absurd h (by simp)
          · exact absurd h (by simp)
        · exact absurd h (by simp)
      · exact absurd h (by simp)

/-! ## Size accounting: the document length is enough parser fuel -/

theorem jsize_pos (w : JValue) : 1 ≤ jsize w := by
  cases w <;> simp [jsize]

mutual

theorem ser_length_J : ∀ (w : JValue), jsize w ≤ (serJ w).length
  | .null => by simp [serJ, jsize]
  | .bool b => by cases b <;> simp [serJ, jsize]
  | .num n => by
    show 1 ≤ (intToString n).length
    unfold intToString
    by_cases hn : n < 0
    · rw [if_pos hn]
      simp
    · rw [if_neg hn]
      obtain ⟨c, t, heq, -⟩ := natToDigits_head n.toNat
      rw [heq]
      simp
  | .str s => by
    show 1 ≤ (serStr s).length
    simp [serStr]
  | .arr es => by
    have h := ser_length_A es
    show 1 + jsizeA es ≤ ('[' :: serArr es).length
    simp only [List.length_cons]
    omega
  | .obj fs => by
    have h := ser_length_O fs
    show 1 + jsizeO fs ≤ ('{' :: serObj fs).length
    simp only [List.length_cons]
    omega

theorem ser_length_A : ∀ (es : JArr), jsizeA es ≤ (serArr es).length
  | .nil => by simp [serArr, jsizeA]
  | .cons v .nil => by
    have h := ser_length_J v
    show 1 + jsize v + jsizeA .nil ≤ (serJ v ++ [']']).length
    simp only [List.length_append, List.length_cons, List.length_nil, jsizeA]
    omega
  | .cons v (.cons v2 vs) => by
    have h1 := ser_length_J v
    have h2 := ser_length_A (.cons v2 vs)
    show 1 + jsize v + jsizeA (.cons v2 vs) ≤
      (serJ v ++ ',' :: serArr (.cons v2 vs)).length
    simp only [List.length_append, List.length_cons]
    omega

theorem ser_length_O : ∀ (fs : JObj), jsizeO fs ≤ (serObj fs).length
  | .nil => by simp [serObj, jsizeO]
  | .cons k v .nil => by
    have h := ser_length_J v
    show 1 + jsize v + jsizeO .nil ≤
      ((serStr k ++ ':' :: serJ v) ++ ['}']).length
    simp only [List.length_append, List.length_cons, List.length_nil, jsizeO]
    omega
  | .cons k v (.cons k2 v2 fs) => by
    have h1 := ser_length_J v
    have h2 := ser_length_O (.cons k2 v2 fs)
    show 1 + jsize v + jsizeO (.cons k2 v2 fs) ≤
      ((serStr k ++ ':' :: serJ v) ++ ',' :: serObj (.cons k2 v2 fs)).length
    simp only [List.length_append, List.length_cons]
    omega

end

/-! ## Parser dispatch helpers -/

theorem skipWs_quote (X : List Char) : skipWs ('"' :: X) = '"' :: X := rfl

theorem skipWs_colon (X : List Char) : skipWs (':' :: X) = ':' :: X := rfl

theorem skipWs_comma (X : List Char) : skipWs (',' :: X) = ',' :: X := rfl

theorem skipWs_rbrack (X : List Char) : skipWs (']' :: X) = ']' :: X := rfl

theorem skipWs_rbrace (X : List Char) : skipWs ('}' :: X) = '}' :: X := rfl

theorem restOk_comma (X : List Char) : restOk (',' :: X) :=
  Or.inr ⟨',', X, rfl, Or.inl rfl⟩

theorem restOk_rbrack (X : List Char) : restOk (']' :: X) :=
  Or.inr ⟨']', X, rfl, Or.inr (Or.inl rfl)⟩

theorem restOk_rbrace (X : List Char) : restOk ('}' :: X) :=
  Or.inr ⟨'}', X, rfl, Or.inr (Or.inr rfl)⟩

theorem insertFieldFront_absent {k : List Char} {v : JValue} {fs : JObj}
    (h : lookupField k fs = none) :
    insertFieldFront k v fs = .cons k v fs := by
  unfold insertFieldFront
  rw [h]

theorem serStr_append (k X : List Char) :
    serStr k ++ X = '"' :: ((k.map escapeChar).flatten ++ ('"' :: X)) := by
  show '"' :: (((k.map escapeChar).flatten ++ ['"']) ++ X) = _
  rw [List.append_assoc]
  rfl

/-- A serialized value never starts with whitespace or one of the closing
delimiters, so the parser's lookahead always dispatches on it. -/
theorem serJ_head_ne (v : JValue) : ∃ c t, serJ v = c :: t ∧
    isJsonWsC c = false ∧ c ≠ ']' ∧ c ≠ '}' ∧ c ≠ ',' := by
  obtain ⟨c, t, heq, hc⟩ := serJ_head v
  rcases hc with hd | hm
  · exact ⟨c, t, heq, isDigit_not_ws hd,
      fun h => by rw [h] at hd; exact absurd hd (by decide),
      fun h => by rw [h] at hd; exact absurd hd (by decide),
      fun h => by rw [h] at hd; exact absurd hd (by decide)⟩
  · simp only [List.mem_cons, List.not_mem_nil, or_false] at hm
    rcases hm with rfl | rfl | rfl | rfl | rfl | rfl | rfl <;>
      exact ⟨_, t, heq, by decide, by decide, by decide, by decide⟩

/-! ## The parse/serialize round trip -/

set_option maxHeartbeats 1000000 in
/-- Parsing a serialized well-formed value (with any permitted
continuation appended) returns exactly that value, provided the fuel is
at least its size. -/
theorem parse_ser : ∀ f : Nat,
    (∀ w rest, jsize w ≤ f → wfJ w = true → restOk rest →
      parseValue f (serJ w ++ rest) = some (w, rest)) ∧
    (∀ v vs rest, jsizeA (JArr.cons v vs) ≤ f → wfA (JArr.cons v vs) = true →
      restOk rest →
      parseElems f (serArr (JArr.cons v vs) ++ rest)
        = some (JArr.cons v vs, rest)) ∧
    (∀ k v fs rest, jsizeO (JObj.cons k v fs) ≤ f →
      (nodupKeysO (JObj.cons k v fs) && wfO (JObj.cons k v fs)) = true →
      restOk rest →
      parseFields f (serObj (JObj.cons k v fs) ++ rest)
        = some (JObj.cons k v fs, rest)) := by
  intro f
  induction f with
  | zero =>
    refine ⟨?_, ?_, ?_⟩
    · intro w rest hf _ _
      have := jsize_pos w
      omega
    · intro v vs rest hf _ _
      have hf' : 1 + jsize v + jsizeA vs ≤ 0 := hf
      omega
    · intro k v fs rest hf _ _
      have hf' : 1 + jsize v + jsizeO fs ≤ 0 := hf
      omega
  | succ f ih =>
    obtain ⟨ihV, ihA, ihO⟩ := ih
    refine ⟨?_, ?_, ?_⟩
    · intro w rest hf hwf hro
      cases w with
      | null => rfl
      | bool b => cases b <;> rfl
      | num n =>
        by_cases hn : n < 0
        · have h1 : serJ (.num n) ++ rest
              = '-' :: (natToDigits (-n).toNat ++ rest) := by
            show intToString n ++ rest = _
            unfold intToString
            rw [if_pos hn]
            rfl
          rw [h1]
          unfold parseValue
          rw [show skipWs ('-' :: (natToDigits (-n).toNat ++ rest))
              = '-' :: (natToDigits (-n).toNat ++ rest) from rfl]
          simp only [parseNumMag_natToDigits _ hro]
          have h2 : (-(((-n).toNat : Nat) : Int)) = n := by omega
          rw [h2]
        · obtain ⟨c, t, heq, hdig⟩ := natToDigits_head n.toNat
          have h1 : serJ (.num n) ++ rest = c :: (t ++ rest) := by
            show intToString n ++ rest = _
            unfold intToString
            rw [if_neg hn, heq]
            rfl
          have hpm : parseNumMag (c :: (t ++ rest)) = some (n.toNat, rest) := by
            have hh := parseNumMag_natToDigits n.toNat hro
            rw [heq] at hh
            exact hh
          rw [h1]
          unfold parseValue
          rw [skipWs_cons (isDigit_not_ws hdig)]
          split
          · next heq2 =>
            rw [List.cons.injEq] at heq2
            rw [heq2.1] at hdig
            exact absurd hdig (by decide)
          · next heq2 =>
            rw [List.cons.injEq] at heq2
            rw [heq2.1] at hdig
            exact absurd hdig (by decide)
          · next heq2 =>
            rw [List.cons.injEq] at heq2
            rw [heq2.1] at hdig
            exact absurd hdig (by decide)
          · next heq2 =>
            rw [List.cons.injEq] at heq2
            rw [heq2.1] at hdig
            exact absurd hdig (by decide)
          · next heq2 =>
            rw [List.cons.injEq] at heq2
            rw [heq2.1] at hdig
            exact absurd hdig (by decide)
          · next heq2 =>
            rw [List.cons.injEq] at heq2
            rw [heq2.1] at hdig
            exact absurd hdig (by decide)
          · next heq2 =>
            rw [List.cons.injEq] at heq2
            rw [heq2.1] at hdig
            exact absurd hdig (by decide)
          · next heq2 =>
            rw [List.cons.injEq] at heq2
            obtain ⟨hc2, hr2⟩ := heq2
            subst hc2
            subst hr2
            rw [if_pos hdig, hpm]
            simp only [Option.some.injEq, Prod.mk.injEq, JValue.num.injEq]
            exact ⟨by omega, trivial⟩
          · next heq2 => exact absurd heq2 (by simp)
      | str s =>
        have h1 : serJ (.str s) ++ rest
            = '"' :: ((s.map escapeChar).flatten ++ ('"' :: rest)) := by
          show '"' :: (((s.map escapeChar).flatten ++ ['"']) ++ rest) = _
          rw [List.append_assoc]
          rfl
        rw [h1]
        unfold parseValue
        rw [skipWs_quote]
        simp only [parseStrBody_ser]
      | arr es =>
        cases es with
        | nil => rfl
        | cons v vs =>
          have hf' : 1 + (1 + jsize v + jsizeA vs) ≤ f + 1 := hf
          have hA : parseElems f (serArr (.cons v vs) ++ rest)
              = some (.cons v vs, rest) :=
            ihA v vs rest (show 1 + jsize v + jsizeA vs ≤ f by omega)
              (show wfA (.cons v vs) = true from hwf) hro
          obtain ⟨c, t, hcv, hws, hrb, hbc, hcm⟩ := serJ_head_ne v
          obtain ⟨X, hX⟩ : ∃ X, serArr (JArr.cons v vs) ++ rest = c :: X := by
            cases vs with
            | nil =>
              refine ⟨t ++ (']' :: rest), ?_⟩
              show (serJ v ++ [']']) ++ rest = _
              rw [hcv, List.append_assoc]
              rfl
            | cons v2 vs2 =>
              refine ⟨t ++ (',' :: (serArr (.cons v2 vs2) ++ rest)), ?_⟩
              show (serJ v ++ ',' :: serArr (.cons v2 vs2)) ++ rest = _
              rw [hcv, List.append_assoc]
              rfl
          have hsw : skipWs (serArr (JArr.cons v vs) ++ rest) = c :: X := by
            rw [hX]
            exact skipWs_cons hws
          rw [show serJ (.arr (.cons v vs)) ++ rest
              = '[' :: (serArr (.cons v vs) ++ rest) from rfl]
          unfold parseValue
          rw [show skipWs ('[' :: (serArr (JArr.cons v vs) ++ rest))
              = '[' :: (serArr (JArr.cons v vs) ++ rest) from
              skipWs_cons (by decide)]
          simp only [hsw]
          split
          · next heq2 =>
            rw [List.cons.injEq] at heq2
            exact absurd heq2.1 hrb
          · next heq2 =>
            rw [← hX, hA]
      | obj fs =>
        cases fs with
        | nil => rfl
        | cons k v fs =>
          have hf' : 1 + (1 + jsize v + jsizeO fs) ≤ f + 1 := hf
          have hO : parseFields f (serObj (.cons k v fs) ++ rest)
              = some (.cons k v fs, rest) :=
            ihO k v fs rest (show 1 + jsize v + jsizeO fs ≤ f by omega)
              (show (nodupKeysO (.cons k v fs) && wfO (.cons k v fs)) = true
                from hwf) hro
          obtain ⟨Z, hZ⟩ : ∃ Z, serObj (JObj.cons k v fs) ++ rest = '"' :: Z := by
            cases fs with
            | nil =>
              refine ⟨(k.map escapeChar).flatten ++
                ('"' :: (':' :: (serJ v ++ ('}' :: rest)))), ?_⟩
              show ((serStr k ++ ':' :: serJ v) ++ ['}']) ++ rest = _
              rw [List.append_assoc, List.append_assoc, serStr_append]
              rfl
            | cons k2 v2 fs2 =>
              refine ⟨(k.map escapeChar).flatten ++
                ('"' :: (':' :: (serJ v ++
                  (',' :: (serObj (.cons k2 v2 fs2) ++ rest))))), ?_⟩
              show ((serStr k ++ ':' :: serJ v) ++
                ',' :: serObj (.cons k2 v2 fs2)) ++ rest = _
              rw [List.append_assoc, List.append_assoc, serStr_append]
              rfl
          rw [hZ] at hO
          rw [show serJ (.obj (.cons k v fs)) ++ rest
              = '{' :: (serObj (.cons k v fs) ++ rest) from rfl]
          unfold parseValue
          rw [show skipWs ('{' :: (serObj (JObj.cons k v fs) ++ rest))
              = '{' :: (serObj (JObj.cons k v fs) ++ rest) from
              skipWs_cons (by decide), hZ]
          simp only [skipWs_quote]
          split
          · next heq2 =>
            rw [List.cons.injEq] at heq2
            exact absurd heq2.1 (by decide)
          · next heq2 =>
            rw [hO]
    · intro v vs rest hf hwf hro
      obtain ⟨hwv, hwvs⟩ :=
        Bool.and_eq_true_iff.mp (show (wfJ v && wfA vs) = true from hwf)
      cases vs with
      | nil =>
        have hf' : 1 + jsize v + 0 ≤ f + 1 := hf
        have hV : parseValue f (serJ v ++ (']' :: rest))
            = some (v, ']' :: rest) :=
          ihV v (']' :: rest) (by omega) hwv (restOk_rbrack rest)
        have h1 : serArr (JArr.cons v JArr.nil) ++ rest
            = serJ v ++ (']' :: rest) := by
          show (serJ v ++ [']']) ++ rest = _
          rw [List.append_assoc]
          rfl
        unfold parseElems
        rw [h1, hV]
        simp only [skipWs_rbrack]
      | cons v2 vs2 =>
        have hf' : 1 + jsize v + (1 + jsize v2 + jsizeA vs2) ≤ f + 1 := hf
        have hp2 := jsize_pos v2
        have hp1 := jsize_pos v
        have hA2 : parseElems f (serArr (.cons v2 vs2) ++ rest)
            = some (.cons v2 vs2, rest) :=
          ihA v2 vs2 rest (show 1 + jsize v2 + jsizeA vs2 ≤ f by omega)
            hwvs hro
        have hV : parseValue f (serJ v ++ (',' :: (serArr (.cons v2 vs2) ++ rest)))
            = some (v, ',' :: (serArr (.cons v2 vs2) ++ rest)) :=
          ihV v _ (by omega) hwv (restOk_comma _)
        have h1 : serArr (JArr.cons v (JArr.cons v2 vs2)) ++ rest
            = serJ v ++ (',' :: (serArr (.cons v2 vs2) ++ rest)) := by
          show (serJ v ++ ',' :: serArr (.cons v2 vs2)) ++ rest = _
          rw [List.append_assoc]
          rfl
        unfold parseElems
        rw [h1, hV]
        simp only [skipWs_comma, hA2]
    · intro k v fs rest hf hw hro
      obtain ⟨hnod, hwfo⟩ := Bool.and_eq_true_iff.mp hw
      obtain ⟨hnk, hnd⟩ := Bool.and_eq_true_iff.mp
        (show ((!(keysO fs).contains k) && nodupKeysO fs) = true from hnod)
      obtain ⟨hwv, hwo⟩ := Bool.and_eq_true_iff.mp
        (show (wfJ v && wfO fs) = true from hwfo)
      cases fs with
      | nil =>
        have hf' : 1 + jsize v + 0 ≤ f + 1 := hf
        have hV : parseValue f (serJ v ++ ('}' :: rest))
            = some (v, '}' :: rest) :=
          ihV v ('}' :: rest) (by omega) hwv (restOk_rbrace rest)
        have hZ : serObj (JObj.cons k v JObj.nil) ++ rest
            = '"' :: ((k.map escapeChar).flatten ++
                ('"' :: (':' :: (serJ v ++ ('}' :: rest))))) := by
          show ((serStr k ++ ':' :: serJ v) ++ ['}']) ++ rest = _
          rw [List.append_assoc, List.append_assoc, serStr_append]
          rfl
        unfold parseFields
        rw [show skipWs (serObj (JObj.cons k v JObj.nil) ++ rest)
            = '"' :: ((k.map escapeChar).flatten ++
                ('"' :: (':' :: (serJ v ++ ('}' :: rest))))) from by
          rw [hZ]
          exact skipWs_cons (by decide)]
        simp only [parseStrBody_ser, skipWs_colon, hV, skipWs_rbrace]
      | cons k2 v2 fs2 =>
        have hf' : 1 + jsize v + (1 + jsize v2 + jsizeO fs2) ≤ f + 1 := hf
        have hp2 := jsize_pos v2
        have hp1 := jsize_pos v
        have hO2 : parseFields f (serObj (.cons k2 v2 fs2) ++ rest)
            = some (.cons k2 v2 fs2, rest) :=
          ihO k2 v2 fs2 rest (show 1 + jsize v2 + jsizeO fs2 ≤ f by omega)
            (Bool.and_eq_true_iff.mpr ⟨hnd, hwo⟩) hro
        have hV : parseValue f
            (serJ v ++ (',' :: (serObj (.cons k2 v2 fs2) ++ rest)))
            = some (v, ',' :: (serObj (.cons k2 v2 fs2) ++ rest)) :=
          ihV v _ (by omega) hwv (restOk_comma _)
        have hlf : lookupField k (JObj.cons k2 v2 fs2) = none :=
          (lookupField_none_iff _).mpr (by simpa using hnk)
        have hZ : serObj (JObj.cons k v (JObj.cons k2 v2 fs2)) ++ rest
            = '"' :: ((k.map escapeChar).flatten ++
                ('"' :: (':' :: (serJ v ++
                  (',' :: (serObj (.cons k2 v2 fs2) ++ rest)))))) := by
          show ((serStr k ++ ':' :: serJ v) ++
            ',' :: serObj (.cons k2 v2 fs2)) ++ rest = _
          rw [List.append_assoc, List.append_assoc, serStr_append]
          rfl
        unfold parseFields
        rw [show skipWs (serObj (JObj.cons k v (JObj.cons k2 v2 fs2)) ++ rest)
            = '"' :: ((k.map escapeChar).flatten ++
                ('"' :: (':' :: (serJ v ++
                  (',' :: (serObj (.cons k2 v2 fs2) ++ rest)))))) from by
          rw [hZ]
          exact skipWs_cons (by decide)]
        simp only [parseStrBody_ser, skipWs_colon, hV, skipWs_comma, hO2]
        rw [insertFieldFront_absent hlf]

theorem parseDoc_wf {doc : List Char} {v : JValue}
    (h : parseDoc doc = some v) : wfJ v = true := by
  unfold parseDoc at h
  split at h
  · next w r heq =>
    split at h
    · injection h with h
      rw [← h]
      exact (parse_wf doc.length).1 doc w r heq
    · exact absurd h (by simp)
  · exact absurd h (by simp)

theorem parseDoc_ser {w : JValue} (hw : wfJ w = true) :
    parseDoc (serJ w) = some w := by
  have h1 : parseValue (serJ w).length (serJ w ++ []) = some (w, []) :=
    (parse_ser (serJ w).length).1 w [] (ser_length_J w) hw (Or.inl rfl)
  rw [List.append_nil] at h1
  unfold parseDoc
  rw [h1]
  rfl

/-! ## Path resolution stays inside well-formed values -/

theorem jArrGet_wf : ∀ (es : JArr) (i : Nat) (x : JValue),
    jArrGet es i = some x → wfA es = true → wfJ x = true
  | .nil, i, x, h, _ => by simp [jArrGet] at h
  | .cons v tl, 0, x, h, hw => by
    obtain ⟨hwv, hwt⟩ := Bool.and_eq_true_iff.mp
      (show (wfJ v && wfA tl) = true from hw)
    injection h with h
    rw [← h]
    exact hwv
  | .cons v tl, n + 1, x, h, hw => by
    obtain ⟨hwv, hwt⟩ := Bool.and_eq_true_iff.mp
      (show (wfJ v && wfA tl) = true from hw)
    exact jArrGet_wf tl n x h hwt

theorem jvGet_wf {v : JValue} {k : List Char} {x : JValue}
    (h : jvGet v k = some x) (hw : wfJ v = true) : wfJ x = true := by
  unfold jvGet at h
  split at h
  · next fs =>
    obtain ⟨hnd, hwo⟩ := Bool.and_eq_true_iff.mp
      (show (nodupKeysO fs && wfO fs) = true from hw)
    exact lookupField_some_wf fs x h hwo
  · exact absurd h (by simp)

theorem jvIdx_wf {v : JValue} {i : Nat} {x : JValue}
    (h : jvIdx v i = some x) (hw : wfJ v = true) : wfJ x = true := by
  unfold jvIdx at h
  split at h
  · next es => exact jArrGet_wf es i x h (show wfA es = true from hw)
  · exact absurd h (by simp)

theorem pathStep_wf {cur : JValue} {part : List Char} {x : JValue}
    (h : pathStep cur part = some x) (hw : wfJ cur = true) : wfJ x = true := by
  unfold pathStep at h
  split at h
  · next k i heq =>
    split at h
    · next v2 heq2 => exact jvIdx_wf h (jvGet_wf heq2 hw)
    · exact absurd h (by simp)
  · exact jvGet_wf h hw

theorem goPath_wf : ∀ (ps : List (List Char)) {cur x : JValue},
    goPath cur ps = some x → wfJ cur = true → wfJ x = true := by
  intro ps
  induction ps with
  | nil =>
    intro cur x h hw
    unfold goPath at h
    injection h with h
    rw [← h]
    exact hw
  | cons p ps ih =>
    intro cur x h hw
    unfold goPath at h
    split at h
    · next v2 heq => exact ih h (pathStep_wf heq hw)
    · exact absurd h (by simp)

theorem getJsonPath_wf {v : JValue} {path : List Char} {w : JValue}
    (h : getJsonPath v path = some w) (hw : wfJ v = true) : wfJ w = true := by
  unfold getJsonPath at h
  by_cases hp : path = []
  · rw [if_pos hp] at h
    injection h with h
    rw [← h]
    exact hw
  · rw [if_neg hp] at h
    exact goPath_wf _ h hw

/-- Claim C7: for every JSON document text that parses and every path
that resolves in the parsed document, re-parsing the text returned by
`jsonExtract` yields a value structurally equal to the one obtained by
resolving the path directly in the parsed document. -/
theorem jsonExtract_roundtrip (doc path : List Char) (v w : JValue)
    (hd : parseDoc doc = some v) (hp : getJsonPath v path = some w) :
    parseDoc (jsonExtract doc path) = some w := by
  have hwv : wfJ v = true := parseDoc_wf hd
  have hww : wfJ w = true := getJsonPath_wf hp hwv
  unfold jsonExtract
  rw [hd]
  simp only [hp]
  exact parseDoc_ser hww

/-- The round trip at a concrete document and path. -/
theorem jsonExtract_roundtrip_witness :
    parseDoc c7Doc = some c7Val ∧
    getJsonPath c7Val c7Path = some (JValue.num 2) ∧
    parseDoc (jsonExtract c7Doc c7Path) = some (JValue.num 2) :=
  ⟨rfl, rfl, jsonExtract_roundtrip c7Doc c7Path c7Val (JValue.num 2) rfl rfl⟩

end Volt
